import Mathlib

/-!
# Rasterization core of `Graphics.cpp`

A shallow embedding of the scan-conversion and clipping routines of
`src/Graphics.cpp` (with the `ROUND` macro of `src/Graphics.h`).

Modelling conventions.

* A C++ `float` is a rational number: all arithmetic is exact.  Values the
  source computes in floating point and that are integers or small dyadic
  fractions (every quantity of the integer-endpoint rasterizers) are
  represented exactly by both.
* `abs` is the floating-point absolute value, `x++` on a float is `x + 1`.
* Conversion `(int)v` truncates toward zero; an `int` stored back into a
  `float` is the cast of that integer.
* A routine whose only effect is a sequence of `DrawPoint(x, y)` calls is
  represented by the list of the `(x, y)` arguments, in call order.
  Routines that also touch the brush act on an explicit `Graphics` state.
* Loops whose termination follows from the loop guard alone are defined by
  well-founded recursion on the number of remaining iterations; the other
  loops take a fuel argument bounding the number of guard evaluations.
* The definitions marked "Proof device" translate no source code: they are
  integer traces of the circle and ellipse loops, tied to the loops
  themselves by `CircleMidpoint_loop_eq_steps`, `region1_eq_steps` and
  `region2_eq_steps2`, and the progress measure of the clipping loop.
-/

namespace Graphics

/-- A pair of coordinates handed to `DrawPoint`. -/
abbrev Point := ℚ × ℚ

/-! ## `Graphics.h`: the `ROUND` macro -/

/-- The C conversion `(int)v` of a floating value: truncation toward zero. -/
def toInt (v : ℚ) : ℤ := if 0 ≤ v then ⌊v⌋ else ⌈v⌉

/-- `#define ROUND(a) ((int)(a + 0.5f))`. -/
def ROUND (a : ℚ) : ℤ := toInt (a + 1 / 2)

/-! ## Cohen-Sutherland outcodes (`Graphics.cpp` lines 5-9, 526-539) -/

/-- `const int INSIDE = 0; // 0000`. -/
abbrev INSIDE : ℕ := 0
/-- `const int LEFT = 1;   // 0001`. -/
abbrev LEFT : ℕ := 1
/-- `const int RIGHT = 2;  // 0010`. -/
abbrev RIGHT : ℕ := 2
/-- `const int BOTTOM = 4; // 0100`. -/
abbrev BOTTOM : ℕ := 4
/-- `const int TOP = 8;    // 1000`. -/
abbrev TOP : ℕ := 8

/-- `Graphics::ComputeOutCode`: region code of `(x, y)` relative to the
window `[xwmin, xwmax] × [ywmin, ywmax]`. -/
def ComputeOutCode (x y xwmin ywmin xwmax ywmax : ℚ) : ℕ :=
  let code := INSIDE
  let code := if x < xwmin then code ||| LEFT
              else if x > xwmax then code ||| RIGHT else code
  let code := if y < ywmin then code ||| BOTTOM
              else if y > ywmax then code ||| TOP else code
  code

/-! ## `LineDDA` (lines 223-240) -/

/-- The `for (int k = 0; k < steps; k++)` loop of `LineDDA`: each pass
advances `(x, y)` by the increments and plots the rounded position. -/
def LineDDA.loop (steps xInc yInc : ℚ) (k : ℕ) (x y : ℚ) : List Point :=
  if (k : ℚ) < steps then
    let x := x + xInc
    let y := y + yInc
    ((ROUND x : ℤ), (ROUND y : ℤ)) :: LineDDA.loop steps xInc yInc (k + 1) x y
  else []
termination_by ⌈steps⌉.toNat - k
decreasing_by
  have h : ((k : ℤ) : ℚ) < steps := by exact_mod_cast ‹(k : ℚ) < steps›
  have h1 : (k : ℤ) < ⌈steps⌉ := Int.lt_ceil.mpr h
  omega

/-- `Graphics::LineDDA`.  When `steps = 0` the quotients `dx / steps` and
`dy / steps` are not used: the loop body does not run. -/
def LineDDA (xa ya xb yb : ℚ) : List Point :=
  let dx := xb - xa
  let dy := yb - ya
  let x := xa
  let y := ya
  let steps := if |dx| > |dy| then |dx| else |dy|
  let xInc := dx / steps
  let yInc := dy / steps
  ((ROUND x : ℤ), (ROUND y : ℤ)) :: LineDDA.loop steps xInc yInc 0 x y

/-! ## `CohenSutherlandLineClipping` (lines 541-593) -/

/-- Outcome of the boundary-intersection step (lines 556-574). -/
inductive Crossing where
  /-- The intersection point `(x, y)`. -/
  | point (x y : ℚ)
  /-- The divisor `y2 - y1` or `x2 - x1` of the formula used is zero. -/
  | divByZero
  /-- None of the four bit tests holds: `x`, `y` are read without a value. -/
  | unset
deriving DecidableEq

/-- Lines 559-574: intersect the segment with the boundary selected by the
first set bit of `outcodeOut`, tested in the order TOP, BOTTOM, RIGHT, LEFT. -/
def CohenSutherlandLineClipping.intersect (xwmin ywmin xwmax ywmax x1 y1 x2 y2 : ℚ)
    (outcodeOut : ℕ) : Crossing :=
  if outcodeOut &&& TOP ≠ 0 then
    if y2 - y1 = 0 then .divByZero
    else .point (x1 + (x2 - x1) * (ywmax - y1) / (y2 - y1)) ywmax
  else if outcodeOut &&& BOTTOM ≠ 0 then
    if y2 - y1 = 0 then .divByZero
    else .point (x1 + (x2 - x1) * (ywmin - y1) / (y2 - y1)) ywmin
  else if outcodeOut &&& RIGHT ≠ 0 then
    if x2 - x1 = 0 then .divByZero
    else .point xwmax (y1 + (y2 - y1) * (xwmax - x1) / (x2 - x1))
  else if outcodeOut &&& LEFT ≠ 0 then
    if x2 - x1 = 0 then .divByZero
    else .point xwmin (y1 + (y2 - y1) * (xwmin - x1) / (x2 - x1))
  else .unset

/-- How the `while (true)` loop of `CohenSutherlandLineClipping` ends. -/
inductive ClipExit where
  /-- Trivial accept: `accept = true`, with the current end points. -/
  | accept (x1 y1 x2 y2 : ℚ)
  /-- Trivial reject: `accept` stays `false`. -/
  | reject
  /-- An intersection step divided by zero. -/
  | divByZero
  /-- An intersection step read `x`, `y` without a value. -/
  | unset
  /-- The fuel ran out before the loop left. -/
  | outOfFuel
deriving DecidableEq

/-- The `while (true)` loop (lines 547-587).  The fuel bounds the number of
passes through the loop head. -/
def CohenSutherlandLineClipping.loop (xwmin ywmin xwmax ywmax : ℚ) :
    ℕ → ℚ → ℚ → ℚ → ℚ → ℕ → ℕ → ClipExit
  | 0, _, _, _, _, _, _ => .outOfFuel
  | fuel + 1, x1, y1, x2, y2, outcode1, outcode2 =>
    if outcode1 ||| outcode2 = 0 then .accept x1 y1 x2 y2
    else if outcode1 &&& outcode2 ≠ 0 then .reject
    else
      let outcodeOut := if outcode1 ≠ 0 then outcode1 else outcode2
      match CohenSutherlandLineClipping.intersect xwmin ywmin xwmax ywmax x1 y1 x2 y2
          outcodeOut with
      | .divByZero => .divByZero
      | .unset => .unset
      | .point x y =>
        if outcodeOut = outcode1 then
          CohenSutherlandLineClipping.loop xwmin ywmin xwmax ywmax fuel x y x2 y2
            (ComputeOutCode x y xwmin ywmin xwmax ywmax) outcode2
        else
          CohenSutherlandLineClipping.loop xwmin ywmin xwmax ywmax fuel x1 y1 x y
            outcode1 (ComputeOutCode x y xwmin ywmin xwmax ywmax)

/-- Lines 543-587: the two initial outcodes, then the loop. -/
def CohenSutherlandLineClipping.clip (fuel : ℕ)
    (xwmin ywmin xwmax ywmax x1 y1 x2 y2 : ℚ) : ClipExit :=
  let outcode1 := ComputeOutCode x1 y1 xwmin ywmin xwmax ywmax
  let outcode2 := ComputeOutCode x2 y2 xwmin ywmin xwmax ywmax
  CohenSutherlandLineClipping.loop xwmin ywmin xwmax ywmax fuel x1 y1 x2 y2
    outcode1 outcode2

/-- `Graphics::CohenSutherlandLineClipping`: the points drawn.  On accept
the segment is handed to `LineDDA`, on reject nothing is drawn; `none` when
the loop did not end in one of these two ways. -/
def CohenSutherlandLineClipping (fuel : ℕ)
    (xwmin ywmin xwmax ywmax x1 y1 x2 y2 : ℚ) : Option (List Point) :=
  match CohenSutherlandLineClipping.clip fuel xwmin ywmin xwmax ywmax x1 y1 x2 y2 with
  | .accept x1 y1 x2 y2 => some (LineDDA x1 y1 x2 y2)
  | .reject => some []
  | _ => none

/-! ## The brush and the render target (lines 70-105) -/

/-- A colour value `D2D1::ColorF` / `D2D1_COLOR_F`: four float channels. -/
structure ColorF where
  r : ℚ
  g : ℚ
  b : ℚ
  a : ℚ
deriving DecidableEq

end Graphics

/-- The part of a `Graphics` object the plotting primitives act on: the
colour of `brush`, and the ellipses drawn on `renderTarget` so far, oldest
first, each with its centre and the brush colour it was drawn with. -/
structure Graphics where
  brush : Graphics.ColorF
  renderTarget : List (Graphics.Point × Graphics.ColorF)
deriving DecidableEq

namespace Graphics

/-- `Graphics::GetBrushColor`. -/
def GetBrushColor (g : Graphics) : ColorF := g.brush

/-- `Graphics::SetBrushColor(D2D1_COLOR_F)`. -/
def SetBrushColor (g : Graphics) (color : ColorF) : Graphics :=
  { g with brush := color }

/-- `Graphics::DrawPoint`: draws an ellipse of radii 0.5 centred at `(x, y)`
with the current brush. -/
def DrawPoint (g : Graphics) (x y : ℚ) : Graphics :=
  { g with renderTarget := g.renderTarget ++ [((x, y), g.brush)] }

/-- The `for (size_t it = 0; it < points.size(); it++)` loop of
`DrawPoints`.  Reading `intensity[it]` past its last element has no defined
result: `none`. -/
def DrawPoints.loop (points : List Point) (intensity : List ColorF) (it : ℕ)
    (g : Graphics) : Option Graphics :=
  if h : it < points.length then
    match intensity[it]? with
    | none => none
    | some c =>
      let g := SetBrushColor g c
      let g := DrawPoint g points[it].1 points[it].2
      DrawPoints.loop points intensity (it + 1) g
  else some g
termination_by points.length - it

/-- `Graphics::DrawPoints`. -/
def DrawPoints (g : Graphics) (points : List Point) (intensity : List ColorF) :
    Option Graphics :=
  let oldBrushColor := GetBrushColor g
  (DrawPoints.loop points intensity 0 g).map fun g => SetBrushColor g oldBrushColor

/-! ## `LineDDA_SSAA3x3` (lines 242-267) -/

/-- `D2D1::ColorF pixel_intensity(D2D1::ColorF(0.0f, 0.0f, 0.0f, 1.0f))`. -/
def pixel_intensity : ColorF := ⟨0, 0, 0, 1⟩

/-- `Graphics::LineDDA_SSAA3x3`: the stepping of `LineDDA`, every position
pushed on `points` with `pixel_intensity` pushed on `intensity`, then one
call of `DrawPoints`. -/
def LineDDA_SSAA3x3 (g : Graphics) (xa ya xb yb : ℚ) : Option Graphics :=
  let dx := xb - xa
  let dy := yb - ya
  let x := xa
  let y := ya
  let steps := if |dx| > |dy| then |dx| else |dy|
  let xInc := dx / steps
  let yInc := dy / steps
  let points : List Point :=
    ((ROUND x : ℤ), (ROUND y : ℤ)) :: LineDDA.loop steps xInc yInc 0 x y
  let intensity := points.map fun _ => pixel_intensity
  DrawPoints g points intensity

/-! ## `LineBresenham` (lines 269-301) -/

/-- The `while (x < xEnd)` loop of `LineBresenham`. -/
def LineBresenham.loop (xEnd twoDy twoDyDx : ℚ) (x y p : ℚ) : List Point :=
  if x < xEnd then
    let x := x + 1
    if p < 0 then
      (x, y) :: LineBresenham.loop xEnd twoDy twoDyDx x y (p + twoDy)
    else
      let y := y + 1
      (x, y) :: LineBresenham.loop xEnd twoDy twoDyDx x y (p + twoDyDx)
  else []
termination_by ⌈xEnd - x⌉.toNat
decreasing_by
  all_goals
    have step : ∀ u v : ℚ, u ≤ v - 1 → 0 < v → ⌈u⌉.toNat < ⌈v⌉.toNat := by
      intro u v h1 h2
      have h3 : ⌈u⌉ ≤ ⌈v⌉ - 1 := by
        rw [← Int.ceil_sub_one]
        exact Int.ceil_le_ceil h1
      have h4 : 0 < ⌈v⌉ := Int.ceil_pos.mpr h2
      omega
    exact step _ _ (by linarith) (by linarith)

/-- `Graphics::LineBresenham`. -/
def LineBresenham (xa ya xb yb : ℚ) : List Point :=
  let dx := |xa - xb|
  let dy := |ya - yb|
  let p := 2 * dy - dx
  let twoDy := 2 * dy
  let twoDyDx := 2 * (dy - dx)
  if xa > xb then
    (xb, yb) :: LineBresenham.loop xa twoDy twoDyDx xb yb p
  else
    (xa, ya) :: LineBresenham.loop xb twoDy twoDyDx xa ya p

/-! ## `LineMidpoint` (lines 305-339) -/

/-- The `while (x < xb)` loop of `LineMidpoint`; `swapped` selects
`DrawPoint(x, y)` or `DrawPoint(y, x)`. -/
def LineMidpoint.loop (swapped : Bool) (xb dx dy : ℚ) (x y d : ℚ) : List Point :=
  if x < xb then
    let x := x + 1
    if d > 0 then
      let y := y + 1
      (if !swapped then (x, y) else (y, x)) ::
        LineMidpoint.loop swapped xb dx dy x y (d + (dy - dx))
    else
      (if !swapped then (x, y) else (y, x)) ::
        LineMidpoint.loop swapped xb dx dy x y (d + dy)
  else []
termination_by ⌈xb - x⌉.toNat
decreasing_by
  all_goals
    have step : ∀ u v : ℚ, u ≤ v - 1 → 0 < v → ⌈u⌉.toNat < ⌈v⌉.toNat := by
      intro u v h1 h2
      have h3 : ⌈u⌉ ≤ ⌈v⌉ - 1 := by
        rw [← Int.ceil_sub_one]
        exact Int.ceil_le_ceil h1
      have h4 : 0 < ⌈v⌉ := Int.ceil_pos.mpr h2
      omega
    exact step _ _ (by linarith) (by linarith)

/-- `Graphics::LineMidpoint`. -/
def LineMidpoint (xa ya xb yb : ℚ) : List Point :=
  let dx := xb - xa
  let dy := yb - ya
  let x := xa
  let y := ya
  if dy > dx then
    let d := dx - dy / 2
    let (x, y) := (y, x)
    let (dx, dy) := (dy, dx)
    let (xb, yb) := (yb, xb)
    (y, x) :: (LineMidpoint.loop true xb dx dy x y d ++ [(yb, xb)])
  else
    let d := dy - dx / 2
    (x, y) :: (LineMidpoint.loop false xb dx dy x y d ++ [(xb, yb)])

/-! ## `LineMidpoint_GuptaSproullAA` (lines 341-392) -/

/-- The `while (x < xb)` loop of `LineMidpoint_GuptaSproullAA`: the points
pushed on `points`, and the values of `x`, `y` when the loop is left. -/
def LineMidpoint_GuptaSproullAA.loop (swapped : Bool) (xb dx dy : ℚ) (x y d : ℚ) :
    List Point × ℚ × ℚ :=
  if x < xb then
    let x := x + 1
    if d ≥ 0 then
      let y := y + 1
      let r := LineMidpoint_GuptaSproullAA.loop swapped xb dx dy x y (d + (dy - dx))
      ((if !swapped then ((ROUND x : ℤ), (ROUND y : ℤ))
        else ((ROUND y : ℤ), (ROUND x : ℤ))) :: r.1, r.2)
    else
      let r := LineMidpoint_GuptaSproullAA.loop swapped xb dx dy x y (d + dy)
      ((if !swapped then ((ROUND x : ℤ), (ROUND y : ℤ))
        else ((ROUND y : ℤ), (ROUND x : ℤ))) :: r.1, r.2)
  else ([], x, y)
termination_by ⌈xb - x⌉.toNat
decreasing_by
  all_goals
    have step : ∀ u v : ℚ, u ≤ v - 1 → 0 < v → ⌈u⌉.toNat < ⌈v⌉.toNat := by
      intro u v h1 h2
      have h3 : ⌈u⌉ ≤ ⌈v⌉ - 1 := by
        rw [← Int.ceil_sub_one]
        exact Int.ceil_le_ceil h1
      have h4 : 0 < ⌈v⌉ := Int.ceil_pos.mpr h2
      omega
    exact step _ _ (by linarith) (by linarith)

/-- `Graphics::LineMidpoint_GuptaSproullAA`.  The locals `D`, `Dlower`,
`Dupper`, `num` and `denom` (a square root) are assigned and never read;
they are left out. -/
def LineMidpoint_GuptaSproullAA (g : Graphics) (xa ya xb yb : ℚ) : Option Graphics :=
  let dx := xb - xa
  let dy := yb - ya
  let x := xa
  let y := ya
  let run (swapped : Bool) (xb dx dy x y d : ℚ) : Option Graphics :=
    let first : Point :=
      if !swapped then ((ROUND x : ℤ), (ROUND y : ℤ)) else ((ROUND y : ℤ), (ROUND x : ℤ))
    let r := LineMidpoint_GuptaSproullAA.loop swapped xb dx dy x y d
    let x := r.2.1
    let y := r.2.2
    let last : Point :=
      if !swapped then ((ROUND x : ℤ), (ROUND y : ℤ)) else ((ROUND y : ℤ), (ROUND x : ℤ))
    let points := first :: (r.1 ++ [last])
    let intensity := points.map fun _ => pixel_intensity
    DrawPoints g points intensity
  if dy > dx then
    let d := dx - dy / 2
    let (x, y) := (y, x)
    let (dx, dy) := (dy, dx)
    let (xb, _) := (yb, xb)
    run true xb dx dy x y d
  else
    let d := dy - dx / 2
    run false xb dx dy x y d

/-! ## `CircleMidpoint` (lines 394-426) -/

/-- `Graphics::CirclePlotPoints`. -/
def CirclePlotPoints (xc yc x y : ℚ) : List Point :=
  [(xc + x, yc + y), (xc - x, yc + y), (xc + x, yc - y), (xc - x, yc - y),
   (xc + y, yc + x), (xc - y, yc + x), (xc + y, yc - x), (xc - y, yc - x)]

/-- The `while (x < y)` loop of `CircleMidpoint`. -/
def CircleMidpoint.loop (xc yc : ℚ) (x y p : ℚ) : List Point :=
  if x < y then
    let x := x + 1
    if p < 0 then
      CirclePlotPoints xc yc x y ++ CircleMidpoint.loop xc yc x y (p + (2 * x + 1))
    else
      let y := y - 1
      CirclePlotPoints xc yc x y ++ CircleMidpoint.loop xc yc x y (p + (2 * (x - y) + 1))
  else []
termination_by ⌈y - x⌉.toNat
decreasing_by
  all_goals
    have step : ∀ u v : ℚ, u ≤ v - 1 → 0 < v → ⌈u⌉.toNat < ⌈v⌉.toNat := by
      intro u v h1 h2
      have h3 : ⌈u⌉ ≤ ⌈v⌉ - 1 := by
        rw [← Int.ceil_sub_one]
        exact Int.ceil_le_ceil h1
      have h4 : 0 < ⌈v⌉ := Int.ceil_pos.mpr h2
      omega
    exact step _ _ (by linarith) (by linarith)

/-- `Graphics::CircleMidpoint`. -/
def CircleMidpoint (xc yc r : ℚ) : List Point :=
  let x : ℚ := 0
  let y := r
  let p := 1 - r
  CirclePlotPoints xc yc x y ++ CircleMidpoint.loop xc yc x y p

/-! ## `EllipseMidpoint` (lines 428-483) -/

/-- `Graphics::EllipsePlotPoints`. -/
def EllipsePlotPoints (xc yc x y : ℚ) : List Point :=
  [(xc + x, yc + y), (xc - x, yc + y), (xc + x, yc - y), (xc - x, yc - y)]

/-- Region 1 of `EllipseMidpoint`, the `while (px < py)` loop: the points
plotted and the values of `x`, `y`, `px`, `py` when the loop is left;
`none` when the fuel runs out first. -/
def EllipseMidpoint.region1 (xc yc rx2 ry2 twoRx2 twoRy2 : ℚ) :
    ℕ → ℚ → ℚ → ℚ → ℚ → ℚ → Option (List Point × ℚ × ℚ × ℚ × ℚ)
  | 0, _, _, _, _, _ => none
  | fuel + 1, x, y, px, py, p =>
    if px < py then
      let x := x + 1
      let px := px + twoRy2
      if p < 0 then
        (EllipseMidpoint.region1 xc yc rx2 ry2 twoRx2 twoRy2 fuel x y px py
          (p + (ry2 + px))).map fun r => (EllipsePlotPoints xc yc x y ++ r.1, r.2)
      else
        let y := y - 1
        let py := py - twoRx2
        (EllipseMidpoint.region1 xc yc rx2 ry2 twoRx2 twoRy2 fuel x y px py
          (p + (ry2 + px - py))).map fun r => (EllipsePlotPoints xc yc x y ++ r.1, r.2)
    else some ([], x, y, px, py)

/-- Region 2 of `EllipseMidpoint`, the `while (y > 0)` loop. -/
def EllipseMidpoint.region2 (xc yc rx2 twoRx2 twoRy2 : ℚ) (x y px py p : ℚ) :
    List Point :=
  if y > 0 then
    let y := y - 1
    let py := py - twoRx2
    if p > 0 then
      EllipsePlotPoints xc yc x y ++
        EllipseMidpoint.region2 xc yc rx2 twoRx2 twoRy2 x y px py (p + (rx2 - py))
    else
      let x := x + 1
      let px := px + twoRy2
      EllipsePlotPoints xc yc x y ++
        EllipseMidpoint.region2 xc yc rx2 twoRx2 twoRy2 x y px py (p + (rx2 - py + px))
  else []
termination_by ⌈y⌉.toNat
decreasing_by
  all_goals
    have step : ∀ u v : ℚ, u ≤ v - 1 → 0 < v → ⌈u⌉.toNat < ⌈v⌉.toNat := by
      intro u v h1 h2
      have h3 : ⌈u⌉ ≤ ⌈v⌉ - 1 := by
        rw [← Int.ceil_sub_one]
        exact Int.ceil_le_ceil h1
      have h4 : 0 < ⌈v⌉ := Int.ceil_pos.mpr h2
      omega
    exact step _ _ (by linarith) (by linarith)

/-- `Graphics::EllipseMidpoint`; `none` when the fuel does not cover the
first loop. -/
def EllipseMidpoint (fuel : ℕ) (xc yc rx ry : ℚ) : Option (List Point) :=
  let rx2 := rx * rx
  let ry2 := ry * ry
  let twoRx2 := 2 * rx2
  let twoRy2 := 2 * ry2
  let x : ℚ := 0
  let y := ry
  let px : ℚ := 0
  let py := twoRx2 * y
  let p : ℚ := (ROUND (ry2 - rx2 * ry + 1 / 4 * rx2) : ℤ)
  match EllipseMidpoint.region1 xc yc rx2 ry2 twoRx2 twoRy2 fuel x y px py p with
  | none => none
  | some (plotted1, x1, y1, px1, py1) =>
    let p : ℚ := (ROUND (ry2 * (x1 + 1 / 2) * (x1 + 1 / 2) + rx2 * (y1 - 1) * (y1 - 1)
      - rx2 * ry2) : ℤ)
    some (EllipsePlotPoints xc yc x y ++ plotted1 ++
      EllipseMidpoint.region2 xc yc rx2 twoRx2 twoRy2 x1 y1 px1 py1 p)

/-! ## Integer traces of the circle and ellipse loops (proof devices) -/

/-- Proof device: the arguments `(x, y)` of the `CirclePlotPoints` calls the
loop of `CircleMidpoint` makes from the integer state `x`, `y`, `p`. -/
def CircleMidpoint.steps (x y p : ℤ) : List (ℤ × ℤ) :=
  if x < y then
    if p < 0 then
      (x + 1, y) :: CircleMidpoint.steps (x + 1) y (p + (2 * (x + 1) + 1))
    else
      (x + 1, y - 1) ::
        CircleMidpoint.steps (x + 1) (y - 1) (p + (2 * ((x + 1) - (y - 1)) + 1))
  else []
termination_by (y - x).toNat
decreasing_by all_goals omega

/-- Proof device: the values of `x`, `y` when the loop of `CircleMidpoint`,
entered in the integer state `x`, `y`, `p`, is left. -/
def CircleMidpoint.final (x y p : ℤ) : ℤ × ℤ :=
  if x < y then
    if p < 0 then CircleMidpoint.final (x + 1) y (p + (2 * (x + 1) + 1))
    else CircleMidpoint.final (x + 1) (y - 1) (p + (2 * ((x + 1) - (y - 1)) + 1))
  else (x, y)
termination_by (y - x).toNat
decreasing_by all_goals omega

/-- Proof device: the arguments `(x, y)` of the `EllipsePlotPoints` calls of
region 2 of `EllipseMidpoint` with both radii `r`, from the integer state
`x`, `y`; `u` is the decision variable divided by `r²`, less 1/4. -/
def EllipseMidpoint.steps2 (x y u : ℤ) : List (ℤ × ℤ) :=
  if y > 0 then
    if u ≥ 0 then
      (x, y - 1) :: EllipseMidpoint.steps2 x (y - 1) (u + (1 - 2 * (y - 1)))
    else
      (x + 1, y - 1) ::
        EllipseMidpoint.steps2 (x + 1) (y - 1) (u + (1 - 2 * (y - 1) + 2 * (x + 1)))
  else []
termination_by y.toNat
decreasing_by all_goals omega

/-- Proof device: `b` is the integer nearest to the ordinate of the circle of
radius `r` about the origin at abscissa `a`: the circle passes between
`(a, b - 1/2)` and `(a, b + 1/2)`. -/
def nearest (r a b : ℤ) : Prop :=
  a * a + b * b - b < r * r ∧ r * r ≤ a * a + b * b + b

instance (r a b : ℤ) : Decidable (nearest r a b) := by
  unfold nearest
  infer_instance

/-! ## Clipping progress measure (proof device) -/

/-- Proof device: the number of window boundaries that have an end point of
the segment strictly beyond them. -/
def CohenSutherlandLineClipping.active (xwmin ywmin xwmax ywmax x1 y1 x2 y2 : ℚ) : ℕ :=
  (if y1 > ywmax ∨ y2 > ywmax then 1 else 0) + (if y1 < ywmin ∨ y2 < ywmin then 1 else 0) +
  (if x1 > xwmax ∨ x2 > xwmax then 1 else 0) + (if x1 < xwmin ∨ x2 < xwmin then 1 else 0)

/-! # Theorems -/

/-! ## Outcodes -/

/-- The outcode is 0 exactly for the points of the window. -/
theorem ComputeOutCode_eq_zero_iff (x y xwmin ywmin xwmax ywmax : ℚ) :
    ComputeOutCode x y xwmin ywmin xwmax ywmax = 0 ↔
      xwmin ≤ x ∧ x ≤ xwmax ∧ ywmin ≤ y ∧ y ≤ ywmax := by
  unfold ComputeOutCode
  split_ifs <;> simp only [not_lt, gt_iff_lt] at * <;>
    simp [INSIDE, LEFT, RIGHT, BOTTOM, TOP] <;>
    first
      | (intros; linarith)
      | exact ⟨by linarith, by linarith, by linarith, by linarith⟩

/-- C4: for a window with `xwmin ≤ xwmax` and `ywmin ≤ ywmax`, the outcode of
`(x, y)` has bit LEFT (1) set iff `x < xwmin`, bit RIGHT (2) iff `x > xwmax`,
bit BOTTOM (4) iff `y < ywmin`, bit TOP (8) iff `y > ywmax`, no bit above
these four (the code is below 16), and it is 0 iff the point is inside the
rectangle. -/
theorem ComputeOutCode_bits (x y xwmin ywmin xwmax ywmax : ℚ)
    (hx : xwmin ≤ xwmax) (hy : ywmin ≤ ywmax) :
    (ComputeOutCode x y xwmin ywmin xwmax ywmax &&& LEFT ≠ 0 ↔ x < xwmin) ∧
    (ComputeOutCode x y xwmin ywmin xwmax ywmax &&& RIGHT ≠ 0 ↔ x > xwmax) ∧
    (ComputeOutCode x y xwmin ywmin xwmax ywmax &&& BOTTOM ≠ 0 ↔ y < ywmin) ∧
    (ComputeOutCode x y xwmin ywmin xwmax ywmax &&& TOP ≠ 0 ↔ y > ywmax) ∧
    ComputeOutCode x y xwmin ywmin xwmax ywmax < 16 ∧
    (ComputeOutCode x y xwmin ywmin xwmax ywmax = 0 ↔
      xwmin ≤ x ∧ x ≤ xwmax ∧ ywmin ≤ y ∧ y ≤ ywmax) := by
  refine ⟨?_, ?_, ?_, ?_, ?_, ComputeOutCode_eq_zero_iff x y xwmin ywmin xwmax ywmax⟩ <;>
    unfold ComputeOutCode <;> split_ifs <;> simp only [not_lt, gt_iff_lt] at * <;>
    simp +decide [INSIDE, LEFT, RIGHT, BOTTOM, TOP] <;> linarith

/-- Witness of C4 over the window `(0, 0, 100, 100)`: `(-5, 50)` gives 1,
`(50, 150)` gives 8 and `(-5, 150)` gives 9, whose LEFT and TOP bits are
the ones set. -/
theorem ComputeOutCode_bits_witness :
    (0 : ℚ) ≤ 100 ∧
    ComputeOutCode (-5) 50 0 0 100 100 = 1 ∧
    ComputeOutCode 50 150 0 0 100 100 = 8 ∧
    ComputeOutCode (-5) 150 0 0 100 100 = 9 ∧
    ((ComputeOutCode (-5) 150 0 0 100 100 &&& LEFT ≠ 0 ↔ (-5 : ℚ) < 0) ∧
     (ComputeOutCode (-5) 150 0 0 100 100 &&& RIGHT ≠ 0 ↔ (-5 : ℚ) > 100) ∧
     (ComputeOutCode (-5) 150 0 0 100 100 &&& BOTTOM ≠ 0 ↔ (150 : ℚ) < 0) ∧
     (ComputeOutCode (-5) 150 0 0 100 100 &&& TOP ≠ 0 ↔ (150 : ℚ) > 100) ∧
     ComputeOutCode (-5) 150 0 0 100 100 < 16 ∧
     (ComputeOutCode (-5) 150 0 0 100 100 = 0 ↔
       (0 : ℚ) ≤ -5 ∧ (-5 : ℚ) ≤ 100 ∧ (0 : ℚ) ≤ 150 ∧ (150 : ℚ) ≤ 100)) :=
  ⟨by norm_num, by norm_num [ComputeOutCode], by norm_num [ComputeOutCode],
    by norm_num [ComputeOutCode]; decide,
    ComputeOutCode_bits (-5) 150 0 0 100 100 (by norm_num) (by norm_num)⟩

/-! ## Clipping: trivial accept and trivial reject -/

/-- Left of the window, the outcode is LEFT alone or LEFT with BOTTOM or TOP. -/
theorem ComputeOutCode_of_left (x y xwmin ywmin xwmax ywmax : ℚ) (h : x < xwmin) :
    ComputeOutCode x y xwmin ywmin xwmax ywmax = 1 ∨
    ComputeOutCode x y xwmin ywmin xwmax ywmax = 5 ∨
    ComputeOutCode x y xwmin ywmin xwmax ywmax = 9 := by
  unfold ComputeOutCode
  split_ifs <;> simp +decide [INSIDE, LEFT, RIGHT, BOTTOM, TOP]

/-- C2: for every window and every pair of end points whose outcodes are both
0, the clipping loop accepts at its first pass (one unit of fuel is enough, so
no intersection step is taken) with the end points unchanged, and the routine
draws exactly `LineDDA(x1, y1, x2, y2)`. -/
theorem clip_inside_unmodified (fuel : ℕ) (xwmin ywmin xwmax ywmax x1 y1 x2 y2 : ℚ)
    (h1 : ComputeOutCode x1 y1 xwmin ywmin xwmax ywmax = 0)
    (h2 : ComputeOutCode x2 y2 xwmin ywmin xwmax ywmax = 0) :
    CohenSutherlandLineClipping.clip (fuel + 1) xwmin ywmin xwmax ywmax x1 y1 x2 y2
      = ClipExit.accept x1 y1 x2 y2 ∧
    CohenSutherlandLineClipping (fuel + 1) xwmin ywmin xwmax ywmax x1 y1 x2 y2
      = some (LineDDA x1 y1 x2 y2) := by
  have h : CohenSutherlandLineClipping.clip (fuel + 1) xwmin ywmin xwmax ywmax x1 y1 x2 y2
      = ClipExit.accept x1 y1 x2 y2 := by
    simp [CohenSutherlandLineClipping.clip, CohenSutherlandLineClipping.loop, h1, h2]
  exact ⟨h, by simp [CohenSutherlandLineClipping, h]⟩

/-- C3: for every window and every pair of end points with `x1 < xwmin` and
`x2 < xwmin`, whatever the y coordinates, the clipping loop rejects at its
first pass, `LineDDA` is not called and no point is drawn. -/
theorem clip_left_rejected (fuel : ℕ) (xwmin ywmin xwmax ywmax x1 y1 x2 y2 : ℚ)
    (h1 : x1 < xwmin) (h2 : x2 < xwmin) :
    CohenSutherlandLineClipping.clip (fuel + 1) xwmin ywmin xwmax ywmax x1 y1 x2 y2
      = ClipExit.reject ∧
    CohenSutherlandLineClipping (fuel + 1) xwmin ywmin xwmax ywmax x1 y1 x2 y2
      = some [] := by
  have h : CohenSutherlandLineClipping.clip (fuel + 1) xwmin ywmin xwmax ywmax x1 y1 x2 y2
      = ClipExit.reject := by
    rcases ComputeOutCode_of_left x1 y1 xwmin ywmin xwmax ywmax h1 with e1 | e1 | e1 <;>
    rcases ComputeOutCode_of_left x2 y2 xwmin ywmin xwmax ywmax h2 with e2 | e2 | e2 <;>
    simp +decide [CohenSutherlandLineClipping.clip, CohenSutherlandLineClipping.loop, e1, e2]
  exact ⟨h, by simp [CohenSutherlandLineClipping, h]⟩

/-- Witness of C2: the segment `(10, 20)-(30, 40)` inside `[0,100]×[0,100]`. -/
theorem clip_inside_unmodified_witness :
    ComputeOutCode 10 20 0 0 100 100 = 0 ∧ ComputeOutCode 30 40 0 0 100 100 = 0 ∧
    CohenSutherlandLineClipping.clip 1 0 0 100 100 10 20 30 40
      = ClipExit.accept 10 20 30 40 ∧
    CohenSutherlandLineClipping 1 0 0 100 100 10 20 30 40
      = some (LineDDA 10 20 30 40) :=
  have h1 : ComputeOutCode 10 20 0 0 100 100 = 0 := by norm_num [ComputeOutCode]
  have h2 : ComputeOutCode 30 40 0 0 100 100 = 0 := by norm_num [ComputeOutCode]
  ⟨h1, h2, clip_inside_unmodified 0 0 0 100 100 10 20 30 40 h1 h2⟩

/-- Witness of C3: the segment `(-5, 3)-(-1, 500)` left of `[0,100]×[0,100]`. -/
theorem clip_left_rejected_witness :
    (-5 : ℚ) < 0 ∧ (-1 : ℚ) < 0 ∧
    CohenSutherlandLineClipping.clip 1 0 0 100 100 (-5) 3 (-1) 500 = ClipExit.reject ∧
    CohenSutherlandLineClipping 1 0 0 100 100 (-5) 3 (-1) 500 = some [] :=
  ⟨by norm_num, by norm_num,
    clip_left_rejected 0 0 0 100 100 (-5) 3 (-1) 500 (by norm_num) (by norm_num)⟩

/-! ## Clipping: one boundary crossed -/

/-- Where a point with a one-bit outcode lies. -/
theorem ComputeOutCode_single (x y xwmin ywmin xwmax ywmax : ℚ) :
    (ComputeOutCode x y xwmin ywmin xwmax ywmax = LEFT →
      x < xwmin ∧ ywmin ≤ y ∧ y ≤ ywmax) ∧
    (ComputeOutCode x y xwmin ywmin xwmax ywmax = RIGHT →
      xwmax < x ∧ ywmin ≤ y ∧ y ≤ ywmax) ∧
    (ComputeOutCode x y xwmin ywmin xwmax ywmax = BOTTOM →
      xwmin ≤ x ∧ x ≤ xwmax ∧ y < ywmin) ∧
    (ComputeOutCode x y xwmin ywmin xwmax ywmax = TOP →
      xwmin ≤ x ∧ x ≤ xwmax ∧ ywmax < y) := by
  unfold ComputeOutCode
  split_ifs <;> simp only [not_lt, gt_iff_lt] at * <;>
    simp +decide [INSIDE, LEFT, RIGHT, BOTTOM, TOP] <;>
    first
      | linarith
      | exact ⟨by linarith, by linarith⟩
      | exact ⟨by linarith, by linarith, by linarith⟩

/-- One intersection step on the first end point, then trivial accept. -/
theorem loop_first_then_accept (fuel : ℕ) (xwmin ywmin xwmax ywmax x1 y1 x2 y2 px py : ℚ)
    (c : ℕ) (hc : c ≠ 0)
    (hi : CohenSutherlandLineClipping.intersect xwmin ywmin xwmax ywmax x1 y1 x2 y2 c
      = Crossing.point px py)
    (hp : ComputeOutCode px py xwmin ywmin xwmax ywmax = 0) :
    CohenSutherlandLineClipping.loop xwmin ywmin xwmax ywmax (fuel + 2) x1 y1 x2 y2 c 0
      = ClipExit.accept px py x2 y2 := by
  simp [CohenSutherlandLineClipping.loop, hc, hi, hp]

/-- One intersection step on the second end point, then trivial accept. -/
theorem loop_second_then_accept (fuel : ℕ) (xwmin ywmin xwmax ywmax x1 y1 x2 y2 px py : ℚ)
    (c : ℕ) (hc : c ≠ 0)
    (hi : CohenSutherlandLineClipping.intersect xwmin ywmin xwmax ywmax x1 y1 x2 y2 c
      = Crossing.point px py)
    (hp : ComputeOutCode px py xwmin ywmin xwmax ywmax = 0) :
    CohenSutherlandLineClipping.loop xwmin ywmin xwmax ywmax (fuel + 2) x1 y1 x2 y2 0 c
      = ClipExit.accept x1 y1 px py := by
  simp [CohenSutherlandLineClipping.loop, hc, hi, hp, Ne.symm hc]

/-- A point of the segment from `(xo, yo)` to `(xi, yi)` at parameter
`t ∈ [0, 1]` has its second coordinate between those of the end points. -/
theorem between_of_param (lo hi a b t : ℚ) (ht0 : 0 ≤ t) (ht1 : t ≤ 1)
    (ha : lo ≤ a ∧ a ≤ hi) (hb : lo ≤ b ∧ b ≤ hi) :
    lo ≤ a + (b - a) * t ∧ a + (b - a) * t ≤ hi := by
  have h1 : 0 ≤ 1 - t := by linarith
  constructor
  · nlinarith [mul_nonneg ht0 (sub_nonneg.mpr hb.1), mul_nonneg h1 (sub_nonneg.mpr ha.1)]
  · nlinarith [mul_nonneg ht0 (sub_nonneg.mpr hb.2), mul_nonneg h1 (sub_nonneg.mpr ha.2)]

/-- The intersection step, for an inner point `(xi, yi)` and an outer point
`(xo, yo)` beyond exactly one boundary: in either order of the two it yields
the same point, which is inside the window, on the line through the two
points and on the boundary crossed. -/
theorem intersect_single (xwmin ywmin xwmax ywmax xi yi xo yo : ℚ)
    (hx : xwmin ≤ xwmax) (hy : ywmin ≤ ywmax)
    (hin : ComputeOutCode xi yi xwmin ywmin xwmax ywmax = 0)
    (hout : ComputeOutCode xo yo xwmin ywmin xwmax ywmax = LEFT ∨
      ComputeOutCode xo yo xwmin ywmin xwmax ywmax = RIGHT ∨
      ComputeOutCode xo yo xwmin ywmin xwmax ywmax = BOTTOM ∨
      ComputeOutCode xo yo xwmin ywmin xwmax ywmax = TOP) :
    ∃ px py : ℚ,
      CohenSutherlandLineClipping.intersect xwmin ywmin xwmax ywmax xo yo xi yi
        (ComputeOutCode xo yo xwmin ywmin xwmax ywmax) = Crossing.point px py ∧
      CohenSutherlandLineClipping.intersect xwmin ywmin xwmax ywmax xi yi xo yo
        (ComputeOutCode xo yo xwmin ywmin xwmax ywmax) = Crossing.point px py ∧
      ComputeOutCode px py xwmin ywmin xwmax ywmax = 0 ∧
      (px - xi) * (yo - yi) = (py - yi) * (xo - xi) ∧
      (ComputeOutCode xo yo xwmin ywmin xwmax ywmax = LEFT → px = xwmin ∧ xo ≠ xi) ∧
      (ComputeOutCode xo yo xwmin ywmin xwmax ywmax = RIGHT → px = xwmax ∧ xo ≠ xi) ∧
      (ComputeOutCode xo yo xwmin ywmin xwmax ywmax = BOTTOM → py = ywmin ∧ yo ≠ yi) ∧
      (ComputeOutCode xo yo xwmin ywmin xwmax ywmax = TOP → py = ywmax ∧ yo ≠ yi) := by
  obtain ⟨hi1, hi2, hi3, hi4⟩ := (ComputeOutCode_eq_zero_iff xi yi xwmin ywmin xwmax ywmax).mp hin
  obtain ⟨hL, hR, hB, hT⟩ := ComputeOutCode_single xo yo xwmin ywmin xwmax ywmax
  rcases hout with h | h | h | h
  · obtain ⟨h1, h2, h3⟩ := hL h
    have hne : xi - xo ≠ 0 := by intro e; linarith
    have hne' : xo - xi ≠ 0 := by intro e; linarith
    have hpos : 0 < xi - xo := by linarith
    have hb := between_of_param ywmin ywmax yo yi ((xwmin - xo) / (xi - xo))
      (div_nonneg (by linarith) hpos.le) ((div_le_one hpos).mpr (by linarith)) ⟨h2, h3⟩ ⟨hi3, hi4⟩
    refine ⟨xwmin, yo + (yi - yo) * (xwmin - xo) / (xi - xo), ?_, ?_, ?_, ?_, ?_, ?_, ?_, ?_⟩
    · simp +decide [CohenSutherlandLineClipping.intersect, h, LEFT, RIGHT, BOTTOM, TOP, hne]
    · simp +decide [CohenSutherlandLineClipping.intersect, h, LEFT, RIGHT, BOTTOM, TOP, hne']
      field_simp
      ring
    · rw [ComputeOutCode_eq_zero_iff]
      rw [mul_div_assoc]
      exact ⟨le_refl _, hx, hb.1, hb.2⟩
    · field_simp
      ring
    · intro _
      exact ⟨rfl, by intro e; linarith⟩
    · intro e; rw [h] at e; exact absurd e (by decide)
    · intro e; rw [h] at e; exact absurd e (by decide)
    · intro e; rw [h] at e; exact absurd e (by decide)
  · obtain ⟨h1, h2, h3⟩ := hR h
    have hne : xi - xo ≠ 0 := by intro e; linarith
    have hne' : xo - xi ≠ 0 := by intro e; linarith
    have hneg : xi - xo < 0 := by linarith
    have hb := between_of_param ywmin ywmax yo yi ((xwmax - xo) / (xi - xo))
      (div_nonneg_of_nonpos (by linarith) hneg.le) ((div_le_one_of_neg hneg).mpr (by linarith))
      ⟨h2, h3⟩ ⟨hi3, hi4⟩
    refine ⟨xwmax, yo + (yi - yo) * (xwmax - xo) / (xi - xo), ?_, ?_, ?_, ?_, ?_, ?_, ?_, ?_⟩
    · simp +decide [CohenSutherlandLineClipping.intersect, h, LEFT, RIGHT, BOTTOM, TOP, hne]
    · simp +decide [CohenSutherlandLineClipping.intersect, h, LEFT, RIGHT, BOTTOM, TOP, hne']
      field_simp
      ring
    · rw [ComputeOutCode_eq_zero_iff]
      rw [mul_div_assoc]
      exact ⟨hx, le_refl _, hb.1, hb.2⟩
    · field_simp
      ring
    · intro e; rw [h] at e; exact absurd e (by decide)
    · intro _
      exact ⟨rfl, by intro e; linarith⟩
    · intro e; rw [h] at e; exact absurd e (by decide)
    · intro e; rw [h] at e; exact absurd e (by decide)
  · obtain ⟨h1, h2, h3⟩ := hB h
    have hne : yi - yo ≠ 0 := by intro e; linarith
    have hne' : yo - yi ≠ 0 := by intro e; linarith
    have hpos : 0 < yi - yo := by linarith
    have hb := between_of_param xwmin xwmax xo xi ((ywmin - yo) / (yi - yo))
      (div_nonneg (by linarith) hpos.le) ((div_le_one hpos).mpr (by linarith)) ⟨h1, h2⟩ ⟨hi1, hi2⟩
    refine ⟨xo + (xi - xo) * (ywmin - yo) / (yi - yo), ywmin, ?_, ?_, ?_, ?_, ?_, ?_, ?_, ?_⟩
    · simp +decide [CohenSutherlandLineClipping.intersect, h, LEFT, RIGHT, BOTTOM, TOP, hne]
    · simp +decide [CohenSutherlandLineClipping.intersect, h, LEFT, RIGHT, BOTTOM, TOP, hne']
      field_simp
      ring
    · rw [ComputeOutCode_eq_zero_iff]
      rw [mul_div_assoc]
      exact ⟨hb.1, hb.2, le_refl _, hy⟩
    · field_simp
      ring
    · intro e; rw [h] at e; exact absurd e (by decide)
    · intro e; rw [h] at e; exact absurd e (by decide)
    · intro _
      exact ⟨rfl, by intro e; linarith⟩
    · intro e; rw [h] at e; exact absurd e (by decide)
  · obtain ⟨h1, h2, h3⟩ := hT h
    have hne : yi - yo ≠ 0 := by intro e; linarith
    have hne' : yo - yi ≠ 0 := by intro e; linarith
    have hneg : yi - yo < 0 := by linarith
    have hb := between_of_param xwmin xwmax xo xi ((ywmax - yo) / (yi - yo))
      (div_nonneg_of_nonpos (by linarith) hneg.le) ((div_le_one_of_neg hneg).mpr (by linarith))
      ⟨h1, h2⟩ ⟨hi1, hi2⟩
    refine ⟨xo + (xi - xo) * (ywmax - yo) / (yi - yo), ywmax, ?_, ?_, ?_, ?_, ?_, ?_, ?_, ?_⟩
    · simp +decide [CohenSutherlandLineClipping.intersect, h, LEFT, RIGHT, BOTTOM, TOP, hne]
    · simp +decide [CohenSutherlandLineClipping.intersect, h, LEFT, RIGHT, BOTTOM, TOP, hne']
      field_simp
      ring
    · rw [ComputeOutCode_eq_zero_iff]
      rw [mul_div_assoc]
      exact ⟨hb.1, hb.2, hy, le_refl _⟩
    · field_simp
      ring
    · intro e; rw [h] at e; exact absurd e (by decide)
    · intro e; rw [h] at e; exact absurd e (by decide)
    · intro e; rw [h] at e; exact absurd e (by decide)
    · intro _
      exact ⟨rfl, by intro e; linarith⟩

/-- C1: for a window with `xwmin ≤ xwmax` and `ywmin ≤ ywmax`, an end point
`(xi, yi)` inside the window and an end point `(xo, yo)` whose outcode has
exactly one bit set, in either order of the two end points the clipping loop
accepts after one intersection step, and the segment handed to `LineDDA`
keeps `(xi, yi)` and has `(xo, yo)` replaced by a point `(px, py)` that lies
on the line through the two original end points and on the boundary named by
the outcode; that line is not parallel to the boundary, so `(px, py)` is the
one point where they meet. -/
theorem clip_single_boundary (fuel : ℕ) (xwmin ywmin xwmax ywmax xi yi xo yo : ℚ)
    (hx : xwmin ≤ xwmax) (hy : ywmin ≤ ywmax)
    (hin : ComputeOutCode xi yi xwmin ywmin xwmax ywmax = 0)
    (hout : ComputeOutCode xo yo xwmin ywmin xwmax ywmax = LEFT ∨
      ComputeOutCode xo yo xwmin ywmin xwmax ywmax = RIGHT ∨
      ComputeOutCode xo yo xwmin ywmin xwmax ywmax = BOTTOM ∨
      ComputeOutCode xo yo xwmin ywmin xwmax ywmax = TOP) :
    ∃ px py : ℚ,
      CohenSutherlandLineClipping.clip (fuel + 2) xwmin ywmin xwmax ywmax xo yo xi yi
        = ClipExit.accept px py xi yi ∧
      CohenSutherlandLineClipping.clip (fuel + 2) xwmin ywmin xwmax ywmax xi yi xo yo
        = ClipExit.accept xi yi px py ∧
      CohenSutherlandLineClipping (fuel + 2) xwmin ywmin xwmax ywmax xo yo xi yi
        = some (LineDDA px py xi yi) ∧
      CohenSutherlandLineClipping (fuel + 2) xwmin ywmin xwmax ywmax xi yi xo yo
        = some (LineDDA xi yi px py) ∧
      (px - xi) * (yo - yi) = (py - yi) * (xo - xi) ∧
      (ComputeOutCode xo yo xwmin ywmin xwmax ywmax = LEFT → px = xwmin ∧ xo ≠ xi) ∧
      (ComputeOutCode xo yo xwmin ywmin xwmax ywmax = RIGHT → px = xwmax ∧ xo ≠ xi) ∧
      (ComputeOutCode xo yo xwmin ywmin xwmax ywmax = BOTTOM → py = ywmin ∧ yo ≠ yi) ∧
      (ComputeOutCode xo yo xwmin ywmin xwmax ywmax = TOP → py = ywmax ∧ yo ≠ yi) := by
  obtain ⟨px, py, h1, h2, hp, hline, hbd⟩ :=
    intersect_single xwmin ywmin xwmax ywmax xi yi xo yo hx hy hin hout
  have hc : ComputeOutCode xo yo xwmin ywmin xwmax ywmax ≠ 0 := by
    rcases hout with h | h | h | h <;> rw [h] <;> decide
  have e1 : CohenSutherlandLineClipping.clip (fuel + 2) xwmin ywmin xwmax ywmax xo yo xi yi
      = ClipExit.accept px py xi yi := by
    unfold CohenSutherlandLineClipping.clip
    rw [hin]
    exact loop_first_then_accept fuel xwmin ywmin xwmax ywmax xo yo xi yi px py _ hc h1 hp
  have e2 : CohenSutherlandLineClipping.clip (fuel + 2) xwmin ywmin xwmax ywmax xi yi xo yo
      = ClipExit.accept xi yi px py := by
    unfold CohenSutherlandLineClipping.clip
    rw [hin]
    exact loop_second_then_accept fuel xwmin ywmin xwmax ywmax xi yi xo yo px py _ hc h2 hp
  exact ⟨px, py, e1, e2, by simp [CohenSutherlandLineClipping, e1],
    by simp [CohenSutherlandLineClipping, e2], hline, hbd⟩

/-- Witness of C1: window `(0, 0, 10, 10)`, `p1 = (-5, 5)`, `p2 = (5, 5)`; the
segment drawn is `(0, 5)-(5, 5)`. -/
theorem clip_single_boundary_witness :
    (0 : ℚ) ≤ 10 ∧ ComputeOutCode 5 5 0 0 10 10 = 0 ∧ ComputeOutCode (-5) 5 0 0 10 10 = LEFT ∧
    CohenSutherlandLineClipping.clip 2 0 0 10 10 (-5) 5 5 5 = ClipExit.accept 0 5 5 5 ∧
    CohenSutherlandLineClipping 2 0 0 10 10 (-5) 5 5 5 = some (LineDDA 0 5 5 5) := by
  have hin : ComputeOutCode 5 5 0 0 10 10 = 0 := by
    rw [ComputeOutCode_eq_zero_iff]; norm_num
  have hout : ComputeOutCode (-5) 5 0 0 10 10 = LEFT := by
    norm_num [ComputeOutCode]
  obtain ⟨px, py, h1, -, h3, -, hl, hL, -⟩ :=
    clip_single_boundary 0 0 0 10 10 5 5 (-5) 5 (by norm_num) (by norm_num) hin (Or.inl hout)
  have hpx : px = 0 := (hL hout).1
  have hpy : py = 5 := by
    have := hl
    norm_num at this
    linarith
  subst hpx hpy
  exact ⟨by norm_num, hin, hout, h1, h3⟩

/-! ## `DrawPoints` -/

/-- The loop of `DrawPoints`, entered at index `it` with equally long
vectors, runs to the end and appends the remaining points to the render
target, each with its own colour, in index order. -/
theorem DrawPoints_loop_spec (points : List Point) (intensity : List ColorF)
    (hlen : points.length = intensity.length) :
    ∀ (n it : ℕ) (g : Graphics), points.length - it = n →
      ∃ c : ColorF, DrawPoints.loop points intensity it g =
        some ⟨c, g.renderTarget ++ (List.zip points intensity).drop it⟩ := by
  intro n
  induction n with
  | zero =>
    intro it g h
    have hge : points.length ≤ it := by omega
    refine ⟨g.brush, ?_⟩
    rw [DrawPoints.loop, dif_neg (by omega)]
    rw [List.drop_eq_nil_of_le (by simp [List.length_zip]; omega)]
    simp
  | succ n ih =>
    intro it g h
    have hlt : it < points.length := by omega
    have hlt' : it < intensity.length := by omega
    obtain ⟨c, hc⟩ := ih (it + 1)
      (DrawPoint (SetBrushColor g intensity[it]) points[it].1 points[it].2) (by omega)
    refine ⟨c, ?_⟩
    rw [DrawPoints.loop, dif_pos hlt]
    simp only [List.getElem?_eq_getElem hlt']
    rw [hc]
    have hz : it < (List.zip points intensity).length := by
      simp [List.length_zip]; omega
    rw [List.drop_eq_getElem_cons hz]
    simp [DrawPoint, SetBrushColor]

/-- With equally long vectors `DrawPoints` appends the points with their
colours to the render target and leaves the brush as it found it. -/
theorem DrawPoints_eq_zip (g : Graphics) (points : List Point)
    (intensity : List ColorF) (hlen : points.length = intensity.length) :
    DrawPoints g points intensity =
      some ⟨g.brush, g.renderTarget ++ List.zip points intensity⟩ := by
  obtain ⟨c, hc⟩ := DrawPoints_loop_spec points intensity hlen points.length 0 g (by omega)
  simp [DrawPoints, hc, SetBrushColor, GetBrushColor]

/-- C10: for every batch of points, non-empty or not, with a colour list of
the same length and every initial brush colour, `DrawPoints` returns with the
brush colour it was entered with, and has drawn each point `i` with colour
`intensity[i]`, in index order, after what the render target held before. -/
theorem DrawPoints_restores_brush (g : Graphics) (points : List Point)
    (intensity : List ColorF) (hlen : points.length = intensity.length) :
    DrawPoints g points intensity =
      some ⟨g.brush, g.renderTarget ++ List.zip points intensity⟩ := by
  obtain ⟨c, hc⟩ := DrawPoints_loop_spec points intensity hlen points.length 0 g (by omega)
  simp [DrawPoints, hc, SetBrushColor, GetBrushColor]

/-- Witness of C10: two points, drawn red then green on a blue brush. -/
theorem DrawPoints_restores_brush_witness :
    [((1 : ℚ), (2 : ℚ)), (3, 4)].length = [(⟨1, 0, 0, 1⟩ : ColorF), ⟨0, 1, 0, 1⟩].length ∧
    DrawPoints ⟨⟨0, 0, 1, 1⟩, []⟩ [(1, 2), (3, 4)] [⟨1, 0, 0, 1⟩, ⟨0, 1, 0, 1⟩] =
      some ⟨⟨0, 0, 1, 1⟩, [((1, 2), ⟨1, 0, 0, 1⟩), ((3, 4), ⟨0, 1, 0, 1⟩)]⟩ :=
  ⟨rfl, DrawPoints_restores_brush ⟨⟨0, 0, 1, 1⟩, []⟩ [(1, 2), (3, 4)]
    [⟨1, 0, 0, 1⟩, ⟨0, 1, 0, 1⟩] rfl⟩

/-! ## Degenerate lines -/

theorem ROUND_of_nonneg (a : ℚ) (h : 0 ≤ a) : ROUND a = ⌊a + 1 / 2⌋ := by
  unfold ROUND toInt
  rw [if_pos (by linarith)]

/-- With `steps = 0` the loop of `LineDDA` does not run. -/
theorem LineDDA_loop_zero (xInc yInc x y : ℚ) : LineDDA.loop 0 xInc yInc 0 x y = [] := by
  rw [LineDDA.loop]
  simp

/-- `LineDDA` on a degenerate line: one plot, at the rounded start. -/
theorem LineDDA_degenerate (xa ya : ℚ) :
    LineDDA xa ya xa ya = [(((ROUND xa : ℤ) : ℚ), ((ROUND ya : ℤ) : ℚ))] := by
  simp [LineDDA, LineDDA_loop_zero]

/-- `LineBresenham` on a degenerate line: one plot, at the start. -/
theorem LineBresenham_degenerate (xa ya : ℚ) : LineBresenham xa ya xa ya = [(xa, ya)] := by
  unfold LineBresenham
  simp only [sub_self, abs_zero, gt_iff_lt, lt_self_iff_false, if_false]
  rw [LineBresenham.loop]
  simp

/-- `LineMidpoint` on a degenerate line: the start, then the end point again. -/
theorem LineMidpoint_degenerate (xa ya : ℚ) :
    LineMidpoint xa ya xa ya = [(xa, ya), (xa, ya)] := by
  unfold LineMidpoint
  simp only [sub_self, gt_iff_lt, lt_self_iff_false, if_false]
  rw [LineMidpoint.loop]
  simp

/-- `LineDDA_SSAA3x3` on a degenerate line: one plot, brush restored. -/
theorem LineDDA_SSAA3x3_degenerate (g : Graphics) (xa ya : ℚ) :
    LineDDA_SSAA3x3 g xa ya xa ya =
      some ⟨g.brush, g.renderTarget ++
        [((((ROUND xa : ℤ) : ℚ), ((ROUND ya : ℤ) : ℚ)), pixel_intensity)]⟩ := by
  unfold LineDDA_SSAA3x3
  simp only [sub_self, abs_zero, gt_iff_lt, lt_self_iff_false, if_false, LineDDA_loop_zero]
  rw [DrawPoints_eq_zip g _ _ (by simp)]
  simp

/-- `LineMidpoint_GuptaSproullAA` on a degenerate line: two plots at the rounded
start, brush restored. -/
theorem LineMidpoint_GuptaSproullAA_degenerate (g : Graphics) (xa ya : ℚ) :
    LineMidpoint_GuptaSproullAA g xa ya xa ya =
      some ⟨g.brush, g.renderTarget ++
        [((((ROUND xa : ℤ) : ℚ), ((ROUND ya : ℤ) : ℚ)), pixel_intensity),
         ((((ROUND xa : ℤ) : ℚ), ((ROUND ya : ℤ) : ℚ)), pixel_intensity)]⟩ := by
  unfold LineMidpoint_GuptaSproullAA
  simp only [sub_self, gt_iff_lt, lt_self_iff_false, if_false]
  have hl : LineMidpoint_GuptaSproullAA.loop false xa 0 0 xa ya (0 - 0 / 2) = ([], xa, ya) := by
    rw [LineMidpoint_GuptaSproullAA.loop]
    simp
  simp only [hl]
  rw [DrawPoints_eq_zip g _ _ (by simp)]
  simp

/-- `ROUND` fixes the non-negative integers. -/
theorem ROUND_natCast (n : ℕ) : ROUND (n : ℚ) = n := by
  rw [ROUND_of_nonneg _ (Nat.cast_nonneg n), Int.floor_eq_iff]
  constructor <;> push_cast <;> linarith

/-- Every point the loop of `CircleMidpoint` plots comes from one call of
`CirclePlotPoints`, all of whose points the loop plots. -/
theorem CircleMidpoint_loop_blocks (xc yc : ℚ) (x y p : ℚ) :
    ∀ q ∈ CircleMidpoint.loop xc yc x y p,
      ∃ a b : ℚ, q ∈ CirclePlotPoints xc yc a b ∧
        ∀ q' ∈ CirclePlotPoints xc yc a b, q' ∈ CircleMidpoint.loop xc yc x y p := by
  refine CircleMidpoint.loop.induct xc yc
    (fun x y p => ∀ q ∈ CircleMidpoint.loop xc yc x y p,
      ∃ a b : ℚ, q ∈ CirclePlotPoints xc yc a b ∧
        ∀ q' ∈ CirclePlotPoints xc yc a b, q' ∈ CircleMidpoint.loop xc yc x y p)
    ?_ ?_ ?_ x y p
  · intro x y p hxy x' hp ih q hq
    rw [CircleMidpoint.loop, if_pos hxy] at hq ⊢
    simp only [if_pos hp, List.mem_append] at hq ⊢
    rcases hq with hq | hq
    · exact ⟨x', y, hq, fun q' h' => Or.inl h'⟩
    · obtain ⟨a, b, h1, h2⟩ := ih q hq
      exact ⟨a, b, h1, fun q' h' => Or.inr (h2 q' h')⟩
  · intro x y p hxy x' hp y' ih q hq
    rw [CircleMidpoint.loop, if_pos hxy] at hq ⊢
    simp only [if_neg hp, List.mem_append] at hq ⊢
    rcases hq with hq | hq
    · exact ⟨x', y', hq, fun q' h' => Or.inl h'⟩
    · obtain ⟨a, b, h1, h2⟩ := ih q hq
      exact ⟨a, b, h1, fun q' h' => Or.inr (h2 q' h')⟩
  · intro x y p hxy q hq
    rw [CircleMidpoint.loop, if_neg hxy] at hq
    simp at hq

/-- The eight points of one `CirclePlotPoints` call about the origin are
closed under the eight reflections. -/
theorem CirclePlotPoints_closed (a b x y : ℚ) (h : (x, y) ∈ CirclePlotPoints 0 0 a b) :
    (x, y) ∈ CirclePlotPoints 0 0 a b ∧ (-x, y) ∈ CirclePlotPoints 0 0 a b ∧
    (x, -y) ∈ CirclePlotPoints 0 0 a b ∧ (-x, -y) ∈ CirclePlotPoints 0 0 a b ∧
    (y, x) ∈ CirclePlotPoints 0 0 a b ∧ (-y, x) ∈ CirclePlotPoints 0 0 a b ∧
    (y, -x) ∈ CirclePlotPoints 0 0 a b ∧ (-y, -x) ∈ CirclePlotPoints 0 0 a b := by
  simp only [CirclePlotPoints, List.mem_cons, Prod.mk.injEq, List.mem_singleton, zero_add,
    zero_sub, List.not_mem_nil, or_false] at h ⊢
  rcases h with h | h | h | h | h | h | h | h <;> obtain ⟨hx, hy⟩ := h <;> subst hx hy <;> simp

/-- C8: for every non-negative integer radius `r`, the points `CircleMidpoint`
plots about the centre `(0, 0)` are closed under the eight reflections:
whenever `(x, y)` is plotted, so are `(±x, ±y)` and `(±y, ±x)`. -/
theorem CircleMidpoint_symmetric (r : ℕ) (x y : ℚ) (h : (x, y) ∈ CircleMidpoint 0 0 r) :
    (x, y) ∈ CircleMidpoint 0 0 r ∧ (-x, y) ∈ CircleMidpoint 0 0 r ∧
    (x, -y) ∈ CircleMidpoint 0 0 r ∧ (-x, -y) ∈ CircleMidpoint 0 0 r ∧
    (y, x) ∈ CircleMidpoint 0 0 r ∧ (-y, x) ∈ CircleMidpoint 0 0 r ∧
    (y, -x) ∈ CircleMidpoint 0 0 r ∧ (-y, -x) ∈ CircleMidpoint 0 0 r := by
  have key : ∃ a b : ℚ, (x, y) ∈ CirclePlotPoints 0 0 a b ∧
      ∀ q' ∈ CirclePlotPoints 0 0 a b, q' ∈ CircleMidpoint 0 0 r := by
    unfold CircleMidpoint at h ⊢
    simp only [List.mem_append] at h ⊢
    rcases h with h | h
    · exact ⟨0, r, h, fun q' h' => Or.inl h'⟩
    · obtain ⟨a, b, h1, h2⟩ := CircleMidpoint_loop_blocks 0 0 0 r (1 - r) (x, y) h
      exact ⟨a, b, h1, fun q' h' => Or.inr (h2 q' h')⟩
  obtain ⟨a, b, h1, h2⟩ := key
  obtain ⟨c1, c2, c3, c4, c5, c6, c7, c8⟩ := CirclePlotPoints_closed a b x y h1
  exact ⟨h2 _ c1, h2 _ c2, h2 _ c3, h2 _ c4, h2 _ c5, h2 _ c6, h2 _ c7, h2 _ c8⟩

/-- Witness of C8, radius 5: `(3, 4)` is plotted, and so are its images
`(-3, 4)` and `(4, -3)`. -/
theorem CircleMidpoint_symmetric_witness :
    ((3 : ℚ), (4 : ℚ)) ∈ CircleMidpoint 0 0 (5 : ℕ) ∧
    ((-3 : ℚ), (4 : ℚ)) ∈ CircleMidpoint 0 0 (5 : ℕ) ∧
    ((4 : ℚ), (-3 : ℚ)) ∈ CircleMidpoint 0 0 (5 : ℕ) := by
  have h : ((3 : ℚ), (4 : ℚ)) ∈ CircleMidpoint 0 0 (5 : ℕ) := by
    simp only [CircleMidpoint, List.mem_append]
    right
    rw [CircleMidpoint.loop]; norm_num
    rw [CircleMidpoint.loop]; norm_num
    rw [CircleMidpoint.loop]; norm_num
    simp [CirclePlotPoints]
  have hs := CircleMidpoint_symmetric 5 3 4 h
  exact ⟨h, hs.2.1, hs.2.2.2.2.2.2.1⟩

/-! ## `LineBresenham` and `LineMidpoint` in the first octant -/

/-- In the first octant, as long as the decision variable is never zero, the
loops of `LineBresenham` and `LineMidpoint` plot the same points: the
variable `d` of the one is half the variable `p` of the other. -/
theorem first_octant_loops_agree (xa ya dx dy : ℤ)
    (hno : ∀ k j : ℤ, 0 < k → k ≤ dx → 2 * dy * k ≠ dx * (2 * j + 1)) :
    ∀ (n : ℕ) (k j : ℤ) (x y p : ℚ), 0 ≤ k → k + n = dx →
      x = xa + k → y = ya + j → p = 2 * dy * (k + 1) - dx * (2 * j + 1) →
      LineBresenham.loop (xa + dx) (2 * dy) (2 * (dy - dx)) x y p =
        LineMidpoint.loop false (xa + dx) dx dy x y (p / 2) := by
  intro n
  induction n with
  | zero =>
    intro k j x y p hk hkn hx hy hp
    have hxe : ¬ x < (xa : ℚ) + dx := by
      have : (k : ℚ) = dx := by exact_mod_cast (by omega : k = dx)
      rw [hx, this]; exact lt_irrefl _
    rw [LineBresenham.loop, LineMidpoint.loop, if_neg hxe, if_neg hxe]
  | succ n ih =>
    intro k j x y p hk hkn hx hy hp
    have hklt : k < dx := by omega
    have hxe : x < (xa : ℚ) + dx := by
      have : (k : ℚ) < dx := by exact_mod_cast hklt
      rw [hx]; linarith
    have hp0 : p ≠ 0 := by
      intro h0
      apply hno (k + 1) j (by omega) (by omega)
      have : ((2 * dy * (k + 1) : ℤ) : ℚ) = ((dx * (2 * j + 1) : ℤ) : ℚ) := by
        push_cast; linarith
      exact_mod_cast this
    rw [LineBresenham.loop, LineMidpoint.loop, if_pos hxe, if_pos hxe]
    by_cases hneg : p < 0
    · have hd : ¬ p / 2 > 0 := by
        intro h; linarith
      simp only [if_pos hneg, if_neg hd, Bool.not_false, if_true]
      rw [ih (k + 1) j (x + 1) y (p + 2 * dy) (by omega) (by omega)
        (by push_cast; linarith) hy (by push_cast; linarith)]
      congr 2
      ring
    · have hpos : 0 < p := lt_of_le_of_ne (not_lt.mp hneg) (Ne.symm hp0)
      have hd : p / 2 > 0 := by positivity
      simp only [if_neg hneg, if_pos hd, Bool.not_false, if_true]
      rw [ih (k + 1) (j + 1) (x + 1) (y + 1) (p + 2 * (dy - dx)) (by omega)
        (by omega) (by push_cast; linarith) (by push_cast; linarith)
        (by push_cast; linarith)]
      congr 2
      ring

/-- The last step of a first-octant run: with `k + 1 = dx` the decision
variable fixes the row the loop moves to as the row of the end point. -/
theorem first_octant_last_row (dx dy k j P : ℤ) (hdy : 0 ≤ dy) (hs : dy ≤ dx)
    (hk : k + 1 = dx) (hP : P = 2 * dy * (k + 1) - dx * (2 * j + 1))
    (hlo : 2 * dy - 2 * dx ≤ P) (hhi : P < 2 * dy) :
    (P < 0 → j = dy) ∧ (¬ P < 0 → j + 1 = dy) := by
  have hdx : 0 < dx := by
    rcases eq_or_lt_of_le (le_trans hdy hs) with h | h
    · exfalso
      rw [← h] at hs hlo
      have : dy = 0 := by omega
      omega
    · exact h
  have hP' : P = dx * (2 * (dy - j) - 1) := by rw [hP, hk]; ring
  constructor
  · intro hneg
    have h1 : 2 * (dy - j) - 1 < 0 := by
      by_contra h
      push_neg at h
      have := mul_nonneg hdx.le h
      omega
    have h2 : -2 ≤ 2 * (dy - j) - 1 := by
      by_contra h
      push_neg at h
      have h3 : 2 * (dy - j) - 1 ≤ -3 := by omega
      have := mul_le_mul_of_nonneg_left h3 hdx.le
      omega
    omega
  · intro hnn
    have h1 : 0 ≤ 2 * (dy - j) - 1 := by
      by_contra h
      push_neg at h
      have h3 : 2 * (dy - j) - 1 ≤ -1 := by omega
      have := mul_le_mul_of_nonneg_left h3 hdx.le
      omega
    have h2 : 2 * (dy - j) - 1 < 2 := by
      by_contra h
      push_neg at h
      have := mul_le_mul_of_nonneg_left h hdx.le
      omega
    omega

/-- In the first octant the loop of `LineBresenham` plots the end point. -/
theorem first_octant_reaches_end (xa ya dx dy : ℤ) (hdy : 0 ≤ dy) (hs : dy ≤ dx) :
    ∀ (n : ℕ) (k j P : ℤ) (x y p : ℚ), 0 ≤ k → k + n + 1 = dx →
      x = xa + k → y = ya + j → P = 2 * dy * (k + 1) - dx * (2 * j + 1) → p = P →
      2 * dy - 2 * dx ≤ P → P < 2 * dy →
      (((xa : ℚ) + dx, (ya : ℚ) + dy) : Point) ∈
        LineBresenham.loop (xa + dx) (2 * dy) (2 * (dy - dx)) x y p := by
  intro n
  induction n with
  | zero =>
    intro k j P x y p hk hkn hx hy hP hp hlo hhi
    have hxe : x < (xa : ℚ) + dx := by
      have : (k : ℚ) < dx := by exact_mod_cast (by omega : k < dx)
      rw [hx]; linarith
    have hx1 : x + 1 = (xa : ℚ) + dx := by
      have : (k : ℚ) + 1 = dx := by exact_mod_cast (by omega : k + 1 = dx)
      rw [hx]; linarith
    obtain ⟨c1, c2⟩ := first_octant_last_row dx dy k j P hdy hs (by omega) hP hlo hhi
    rw [LineBresenham.loop, if_pos hxe]
    by_cases hneg : p < 0
    · have hj : j = dy := c1 (by rw [hp] at hneg; exact_mod_cast hneg)
      simp only [if_pos hneg]
      rw [hx1, hy, hj]
      exact List.mem_cons_self _ _
    · have hj : j + 1 = dy := c2 (by rw [hp] at hneg; exact_mod_cast hneg)
      have hy1 : y + 1 = (ya : ℚ) + dy := by
        have : (j : ℚ) + 1 = dy := by exact_mod_cast hj
        rw [hy]; linarith
      simp only [if_neg hneg]
      rw [hx1, hy1]
      exact List.mem_cons_self _ _
  | succ n ih =>
    intro k j P x y p hk hkn hx hy hP hp hlo hhi
    have hxe : x < (xa : ℚ) + dx := by
      have : (k : ℚ) < dx := by exact_mod_cast (by omega : k < dx)
      rw [hx]; linarith
    rw [LineBresenham.loop, if_pos hxe]
    by_cases hneg : p < 0
    · have hneg' : P < 0 := by rw [hp] at hneg; exact_mod_cast hneg
      simp only [if_pos hneg]
      apply List.mem_cons_of_mem
      exact ih (k + 1) j (P + 2 * dy) (x + 1) y (p + 2 * dy) (by omega) (by omega)
        (by push_cast; linarith) hy (by rw [hP]; ring) (by push_cast; linarith)
        (by omega) (by omega)
    · have hneg' : ¬ P < 0 := by rw [hp] at hneg; exact_mod_cast hneg
      simp only [if_neg hneg]
      apply List.mem_cons_of_mem
      exact ih (k + 1) (j + 1) (P + 2 * (dy - dx)) (x + 1) (y + 1) (p + 2 * (dy - dx))
        (by omega) (by omega) (by push_cast; linarith) (by push_cast; linarith)
        (by rw [hP]; ring) (by push_cast; linarith) (by omega) (by omega)

/-- The first-octant agreement, with the end point written as start plus
`(dx, dy)`. -/
theorem first_octant_same_points (xa ya dx dy : ℤ) (hdy : 0 ≤ dy) (hs : dy ≤ dx)
    (hno : ∀ k j : ℤ, 0 < k → k ≤ dx → 2 * dy * k ≠ dx * (2 * j + 1)) (q : Point) :
    q ∈ LineBresenham xa ya ((xa : ℚ) + dx) ((ya : ℚ) + dy) ↔
      q ∈ LineMidpoint xa ya ((xa : ℚ) + dx) ((ya : ℚ) + dy) := by
  have hdyq : (0 : ℚ) ≤ dy := by exact_mod_cast hdy
  have hsq : (dy : ℚ) ≤ dx := by exact_mod_cast hs
  have hdxq : (0 : ℚ) ≤ dx := le_trans hdyq hsq
  have hax : |(xa : ℚ) - ((xa : ℚ) + dx)| = dx := by
    rw [abs_sub_comm, add_sub_cancel_left, abs_of_nonneg hdxq]
  have hay : |(ya : ℚ) - ((ya : ℚ) + dy)| = dy := by
    rw [abs_sub_comm, add_sub_cancel_left, abs_of_nonneg hdyq]
  have hB : LineBresenham xa ya ((xa : ℚ) + dx) ((ya : ℚ) + dy) = ((xa : ℚ), (ya : ℚ)) ::
      LineBresenham.loop ((xa : ℚ) + dx) (2 * dy) (2 * ((dy : ℚ) - dx)) xa ya
        (2 * (dy : ℚ) - dx) := by
    unfold LineBresenham
    simp only [hax, hay]
    rw [if_neg (by simpa using hdxq)]
  have hM : LineMidpoint xa ya ((xa : ℚ) + dx) ((ya : ℚ) + dy) = ((xa : ℚ), (ya : ℚ)) ::
      (LineMidpoint.loop false ((xa : ℚ) + dx) dx dy xa ya ((2 * (dy : ℚ) - dx) / 2)
        ++ [((xa : ℚ) + dx, (ya : ℚ) + dy)]) := by
    unfold LineMidpoint
    simp only [add_sub_cancel_left]
    rw [if_neg (by simpa using hsq)]
    congr 3
    ring
  have hagree := first_octant_loops_agree xa ya dx dy hno dx.toNat 0 0
    xa ya (2 * (dy : ℚ) - dx) (le_refl _) (by omega)
    (by push_cast; ring) (by push_cast; ring) (by push_cast; ring)
  have hend : (((xa : ℚ) + dx, (ya : ℚ) + dy) : Point) ∈
      ((xa : ℚ), (ya : ℚ)) :: LineBresenham.loop ((xa : ℚ) + dx) (2 * dy)
        (2 * ((dy : ℚ) - dx)) xa ya (2 * (dy : ℚ) - dx) := by
    rcases eq_or_lt_of_le (le_trans hdy hs) with h | h
    · have h2 : dy = 0 := by omega
      rw [← h, h2]
      simp
    · apply List.mem_cons_of_mem
      exact first_octant_reaches_end xa ya dx dy hdy hs
        (dx.toNat - 1) 0 0 (2 * dy - dx) xa ya
        (2 * (dy : ℚ) - dx) (le_refl _) (by omega)
        (by push_cast; ring) (by push_cast; ring) (by ring) (by push_cast; ring)
        (by omega) (by omega)
  rw [hM, ← hagree, hB]
  simp only [List.mem_cons, List.mem_append, List.mem_singleton, List.not_mem_nil,
    or_false] at hend ⊢
  constructor
  · rintro (h | h)
    · exact Or.inl h
    · exact Or.inr (Or.inl h)
  · rintro (h | h | h)
    · exact Or.inl h
    · exact Or.inr h
    · rw [h]; exact hend

theorem LineBresenham_0_0_2_1 : LineBresenham 0 0 2 1 = [(0, 0), (1, 1), (2, 1)] := by
  simp only [LineBresenham]
  norm_num
  rw [LineBresenham.loop]; norm_num
  rw [LineBresenham.loop]; norm_num
  rw [LineBresenham.loop]; norm_num

/-- `LineMidpoint` from `(0, 0)` to `(2, 1)`. -/
theorem LineMidpoint_0_0_2_1 : LineMidpoint 0 0 2 1 = [(0, 0), (1, 0), (2, 1), (2, 1)] := by
  simp only [LineMidpoint]
  norm_num
  rw [LineMidpoint.loop]; norm_num
  rw [LineMidpoint.loop]; norm_num
  rw [LineMidpoint.loop]; norm_num

/-- `LineBresenham` from `(0, 0)` to `(3, -1)`. -/
theorem LineBresenham_0_0_3_m1 :
    LineBresenham 0 0 3 (-1) = [(0, 0), (1, 0), (2, 1), (3, 1)] := by
  simp only [LineBresenham]
  norm_num
  rw [LineBresenham.loop]; norm_num
  rw [LineBresenham.loop]; norm_num
  rw [LineBresenham.loop]; norm_num
  rw [LineBresenham.loop]; norm_num

/-- `LineMidpoint` from `(0, 0)` to `(3, -1)`. -/
theorem LineMidpoint_0_0_3_m1 :
    LineMidpoint 0 0 3 (-1) = [(0, 0), (1, 0), (2, 0), (3, 0), (3, -1)] := by
  simp only [LineMidpoint]
  norm_num
  rw [LineMidpoint.loop]; norm_num
  rw [LineMidpoint.loop]; norm_num
  rw [LineMidpoint.loop]; norm_num
  rw [LineMidpoint.loop]; norm_num

/-- `LineMidpoint` from `(0, 0)` to `(3, 0)`. -/
theorem LineMidpoint_0_0_3_0 :
    LineMidpoint 0 0 3 0 = [(0, 0), (1, 0), (2, 0), (3, 0), (3, 0)] := by
  simp only [LineMidpoint]
  norm_num
  rw [LineMidpoint.loop]; norm_num
  rw [LineMidpoint.loop]; norm_num
  rw [LineMidpoint.loop]; norm_num
  rw [LineMidpoint.loop]; norm_num

/-- `LineMidpoint` from `(3, 0)` to `(0, 0)`. -/
theorem LineMidpoint_3_0_0_0 : LineMidpoint 3 0 0 0 = [(3, 0), (0, 0)] := by
  simp only [LineMidpoint]
  norm_num
  rw [LineMidpoint.loop]; norm_num

/-- `LineBresenham` from `(3, 0)` to `(0, 0)`. -/
theorem LineBresenham_3_0_0_0 :
    LineBresenham 3 0 0 0 = [(0, 0), (1, 0), (2, 0), (3, 0)] := by
  simp only [LineBresenham]
  norm_num
  rw [LineBresenham.loop]; norm_num
  rw [LineBresenham.loop]; norm_num
  rw [LineBresenham.loop]; norm_num
  rw [LineBresenham.loop]; norm_num

/-- C7 fails on the code at `A = (0, 0)`, `B = (3, 0)`: drawn from `A` to
`B`, `LineMidpoint` plots the four points of the segment (the last one
twice); drawn from `B` to `A` it plots the two end points only, so `(1, 0)`
is plotted in one direction and not in the other. -/
theorem LineMidpoint_direction_dependent :
    LineMidpoint 0 0 3 0 = [(0, 0), (1, 0), (2, 0), (3, 0), (3, 0)] ∧
    LineMidpoint 3 0 0 0 = [(3, 0), (0, 0)] ∧
    (((1 : ℚ), (0 : ℚ)) : Point) ∈ LineMidpoint 0 0 3 0 ∧
    (((1 : ℚ), (0 : ℚ)) : Point) ∉ LineMidpoint 3 0 0 0 := by
  rw [LineMidpoint_0_0_3_0, LineMidpoint_3_0_0_0]
  simp only [List.mem_cons, List.mem_singleton, List.not_mem_nil, Prod.mk.injEq]
  norm_num

/-! ## `EllipseMidpoint` with equal radii -/

/-- A nearest ordinate is positive. -/
theorem nearest_pos (r a b : ℤ) (h : nearest r a b) : 0 < b := by
  obtain ⟨h1, h2⟩ := h
  omega

/-- There is one nearest ordinate at most. -/
theorem nearest_unique (r a b b' : ℤ) (h : nearest r a b) (h' : nearest r a b') : b = b' := by
  have hb := nearest_pos r a b h
  have hb' := nearest_pos r a b' h'
  obtain ⟨h1, h2⟩ := h
  obtain ⟨h3, h4⟩ := h'
  rcases lt_trichotomy b b' with hlt | heq | hgt
  · exfalso
    nlinarith
  · exact heq
  · exfalso
    nlinarith

/-- What the octant loop of `CircleMidpoint` visits, for integer states that
start on a nearest point at or above the diagonal: it stops at or one step
past the diagonal, every point visited up to the diagonal is a nearest
point, and every column up to the last is visited. -/
theorem octant_spec (r : ℤ) (x y p : ℤ) :
    0 ≤ x → x ≤ y → nearest r x y → p = (x + 1) * (x + 1) + y * y - y - r * r →
    (CircleMidpoint.final x y p).2 ≤ (CircleMidpoint.final x y p).1 ∧
    (CircleMidpoint.final x y p).1 ≤ (CircleMidpoint.final x y p).2 + 1 ∧
    0 ≤ (CircleMidpoint.final x y p).2 ∧
    nearest r (CircleMidpoint.final x y p).2 (CircleMidpoint.final x y p).1 ∧
    CircleMidpoint.final x y p ∈ (x, y) :: CircleMidpoint.steps x y p ∧
    ((CircleMidpoint.final x y p).1 = (CircleMidpoint.final x y p).2 + 1 →
      ((CircleMidpoint.final x y p).1 - 1, (CircleMidpoint.final x y p).2 + 1) ∈
        (x, y) :: CircleMidpoint.steps x y p) ∧
    (∀ t ∈ (x, y) :: CircleMidpoint.steps x y p,
      x ≤ t.1 ∧ t.1 ≤ (CircleMidpoint.final x y p).1 ∧
      (CircleMidpoint.final x y p).2 ≤ t.2 ∧ t.2 ≤ y ∧
      (t.1 ≤ t.2 → nearest r t.1 t.2) ∧
      (t.1 = (CircleMidpoint.final x y p).1 → t.2 = (CircleMidpoint.final x y p).2)) ∧
    (∀ a : ℤ, x ≤ a → a ≤ (CircleMidpoint.final x y p).1 →
      ∃ b : ℤ, (a, b) ∈ (x, y) :: CircleMidpoint.steps x y p) := by
  refine CircleMidpoint.steps.induct
    (fun x y p => 0 ≤ x → x ≤ y → nearest r x y →
      p = (x + 1) * (x + 1) + y * y - y - r * r →
      (CircleMidpoint.final x y p).2 ≤ (CircleMidpoint.final x y p).1 ∧
      (CircleMidpoint.final x y p).1 ≤ (CircleMidpoint.final x y p).2 + 1 ∧
      0 ≤ (CircleMidpoint.final x y p).2 ∧
      nearest r (CircleMidpoint.final x y p).2 (CircleMidpoint.final x y p).1 ∧
      CircleMidpoint.final x y p ∈ (x, y) :: CircleMidpoint.steps x y p ∧
      ((CircleMidpoint.final x y p).1 = (CircleMidpoint.final x y p).2 + 1 →
        ((CircleMidpoint.final x y p).1 - 1, (CircleMidpoint.final x y p).2 + 1) ∈
          (x, y) :: CircleMidpoint.steps x y p) ∧
      (∀ t ∈ (x, y) :: CircleMidpoint.steps x y p,
        x ≤ t.1 ∧ t.1 ≤ (CircleMidpoint.final x y p).1 ∧
        (CircleMidpoint.final x y p).2 ≤ t.2 ∧ t.2 ≤ y ∧
        (t.1 ≤ t.2 → nearest r t.1 t.2) ∧
        (t.1 = (CircleMidpoint.final x y p).1 → t.2 = (CircleMidpoint.final x y p).2)) ∧
      (∀ a : ℤ, x ≤ a → a ≤ (CircleMidpoint.final x y p).1 →
        ∃ b : ℤ, (a, b) ∈ (x, y) :: CircleMidpoint.steps x y p)) ?_ ?_ ?_ x y p
  · -- p < 0: the row is kept
    intro x y p hxy hp ih hx0 _ hn hpe
    have hn' : nearest r (x + 1) y := by
      obtain ⟨h1, h2⟩ := hn
      constructor
      · rw [hpe] at hp; linarith
      · nlinarith
    obtain ⟨i1, i2, i3, i4, i5, i6, i7, i8⟩ :=
      ih (by omega) (by omega) hn' (by rw [hpe]; ring)
    have hs : CircleMidpoint.steps x y p =
        (x + 1, y) :: CircleMidpoint.steps (x + 1) y (p + (2 * (x + 1) + 1)) := by
      rw [CircleMidpoint.steps, if_pos hxy, if_pos hp]
    have hf : CircleMidpoint.final x y p =
        CircleMidpoint.final (x + 1) y (p + (2 * (x + 1) + 1)) := by
      rw [CircleMidpoint.final, if_pos hxy, if_pos hp]
    rw [hs, hf]
    have hhead := i7 (x + 1, y) (List.mem_cons_self _ _)
    refine ⟨i1, i2, i3, i4, List.mem_cons_of_mem _ i5,
      fun h => List.mem_cons_of_mem _ (i6 h), ?_, ?_⟩
    · intro t ht
      rcases List.mem_cons.mp ht with rfl | ht
      · exact ⟨le_refl _, by have := hhead.2.1; simp only at this ⊢; omega,
          hhead.2.2.1, le_refl _, fun _ => hn,
          fun h => by have := hhead.1; have := hhead.2.1; simp only at *; omega⟩
      · obtain ⟨j1, j2, j3, j4, j5, j6⟩ := i7 t ht
        exact ⟨by omega, j2, j3, j4, j5, j6⟩
    · intro a ha1 ha2
      rcases eq_or_lt_of_le ha1 with rfl | hlt
      · exact ⟨y, List.mem_cons_self _ _⟩
      · obtain ⟨b, hb⟩ := i8 a (by omega) ha2
        exact ⟨b, List.mem_cons_of_mem _ hb⟩
  · -- p ≥ 0: the row is lowered
    intro x y p hxy hp ih hx0 _ hn hpe
    have hs : CircleMidpoint.steps x y p = (x + 1, y - 1) ::
        CircleMidpoint.steps (x + 1) (y - 1) (p + (2 * ((x + 1) - (y - 1)) + 1)) := by
      rw [CircleMidpoint.steps, if_pos hxy, if_neg hp]
    have hf : CircleMidpoint.final x y p =
        CircleMidpoint.final (x + 1) (y - 1) (p + (2 * ((x + 1) - (y - 1)) + 1)) := by
      rw [CircleMidpoint.final, if_pos hxy, if_neg hp]
    rw [hs, hf]
    by_cases hdiag : x + 1 ≤ y - 1
    · have hn' : nearest r (x + 1) (y - 1) := by
        obtain ⟨h1, h2⟩ := hn
        constructor
        · nlinarith
        · rw [hpe] at hp; linarith
      obtain ⟨i1, i2, i3, i4, i5, i6, i7, i8⟩ :=
        ih (by omega) hdiag hn' (by rw [hpe]; ring)
      have hhead := i7 (x + 1, y - 1) (List.mem_cons_self _ _)
      refine ⟨i1, i2, i3, i4, List.mem_cons_of_mem _ i5,
        fun h => List.mem_cons_of_mem _ (i6 h), ?_, ?_⟩
      · intro t ht
        rcases List.mem_cons.mp ht with rfl | ht
        · exact ⟨le_refl _, by have := hhead.2.1; simp only at this ⊢; omega,
            by have := hhead.2.2.1; simp only at this ⊢; omega, le_refl _, fun _ => hn,
            fun h => by have := hhead.1; have := hhead.2.1; simp only at *; omega⟩
        · obtain ⟨j1, j2, j3, j4, j5, j6⟩ := i7 t ht
          exact ⟨by omega, j2, j3, by omega, j5, j6⟩
      · intro a ha1 ha2
        rcases eq_or_lt_of_le ha1 with rfl | hlt
        · exact ⟨y, List.mem_cons_self _ _⟩
        · obtain ⟨b, hb⟩ := i8 a (by omega) ha2
          exact ⟨b, List.mem_cons_of_mem _ hb⟩
    · have hy : y = x + 1 := by omega
      subst hy
      have hs' : CircleMidpoint.steps (x + 1) (x + 1 - 1)
          (p + (2 * ((x + 1) - (x + 1 - 1)) + 1)) = [] := by
        rw [CircleMidpoint.steps, if_neg (by omega)]
      have hf' : CircleMidpoint.final (x + 1) (x + 1 - 1)
          (p + (2 * ((x + 1) - (x + 1 - 1)) + 1)) = (x + 1, x + 1 - 1) := by
        rw [CircleMidpoint.final, if_neg (by omega)]
      rw [hs', hf']
      have e : x + 1 - 1 = x := by omega
      simp only [e]
      refine ⟨by omega, by omega, hx0, hn, by simp, fun _ => by simp, ?_, ?_⟩
      · intro t ht
        simp only [List.mem_cons, List.mem_singleton, List.not_mem_nil, or_false] at ht
        rcases ht with rfl | rfl
        · exact ⟨le_refl _, by omega, by omega, le_refl _, fun _ => hn, fun h => by omega⟩
        · exact ⟨by omega, le_refl _, le_refl _, by omega, fun h => by omega, fun _ => rfl⟩
      · intro a ha1 ha2
        rcases eq_or_lt_of_le ha1 with rfl | hlt
        · exact ⟨x + 1, List.mem_cons_self _ _⟩
        · have : a = x + 1 := by omega
          subst this
          exact ⟨x, by simp⟩
  · -- the loop is left
    intro x y p hxy hx0 hle hn _
    have hy : y = x := by omega
    subst hy
    have hs : CircleMidpoint.steps y y p = [] := by
      rw [CircleMidpoint.steps, if_neg hxy]
    have hf : CircleMidpoint.final y y p = (y, y) := by
      rw [CircleMidpoint.final, if_neg hxy]
    rw [hs, hf]
    refine ⟨le_refl _, by omega, hx0, hn, by simp, fun h => by simp at h, ?_, ?_⟩
    · intro t ht
      simp only [List.mem_singleton] at ht
      subst ht
      exact ⟨le_refl _, le_refl _, le_refl _, le_refl _, fun _ => hn, fun _ => rfl⟩
    · intro a ha1 ha2
      have : a = y := by omega
      subst this
      exact ⟨a, by simp⟩

/-- What region 2 visits, for integer states that start on a nearest point
at or past the diagonal: one nearest point in every row below the start. -/
theorem steps2_spec (r : ℤ) (x y u : ℤ) :
    0 ≤ y → y ≤ x → nearest r y x → u = (y - 1) * (y - 1) + x * x + x - r * r →
    (∀ t ∈ EllipseMidpoint.steps2 x y u, 0 ≤ t.2 ∧ t.2 < y ∧ nearest r t.2 t.1) ∧
    (∀ i : ℤ, 0 ≤ i → i < y → ∃ a : ℤ, (a, i) ∈ EllipseMidpoint.steps2 x y u) := by
  refine EllipseMidpoint.steps2.induct
    (fun x y u => 0 ≤ y → y ≤ x → nearest r y x →
      u = (y - 1) * (y - 1) + x * x + x - r * r →
      (∀ t ∈ EllipseMidpoint.steps2 x y u, 0 ≤ t.2 ∧ t.2 < y ∧ nearest r t.2 t.1) ∧
      (∀ i : ℤ, 0 ≤ i → i < y → ∃ a : ℤ, (a, i) ∈ EllipseMidpoint.steps2 x y u))
    ?_ ?_ ?_ x y u
  · -- u ≥ 0: the column is kept
    intro x y u hy hu ih _ hyx hn hue
    have hn' : nearest r (y - 1) x := by
      obtain ⟨h1, h2⟩ := hn
      constructor
      · nlinarith
      · rw [hue] at hu; linarith
    obtain ⟨i1, i2⟩ := ih (by omega) (by omega) hn' (by rw [hue]; ring)
    have hs : EllipseMidpoint.steps2 x y u =
        (x, y - 1) :: EllipseMidpoint.steps2 x (y - 1) (u + (1 - 2 * (y - 1))) := by
      rw [EllipseMidpoint.steps2, if_pos hy, if_pos hu]
    rw [hs]
    constructor
    · intro t ht
      rcases List.mem_cons.mp ht with rfl | ht
      · exact ⟨by simp only; omega, by simp only; omega, hn'⟩
      · obtain ⟨j1, j2, j3⟩ := i1 t ht
        exact ⟨j1, by omega, j3⟩
    · intro i hi0 hiy
      rcases eq_or_lt_of_le (show i ≤ y - 1 by omega) with rfl | hlt
      · exact ⟨x, List.mem_cons_self _ _⟩
      · obtain ⟨a, ha⟩ := i2 i hi0 hlt
        exact ⟨a, List.mem_cons_of_mem _ ha⟩
  · -- u < 0: the column is advanced
    intro x y u hy hu ih _ hyx hn hue
    have hn' : nearest r (y - 1) (x + 1) := by
      obtain ⟨h1, h2⟩ := hn
      constructor
      · rw [hue] at hu; linarith
      · nlinarith
    obtain ⟨i1, i2⟩ := ih (by omega) (by omega) hn' (by rw [hue]; ring)
    have hs : EllipseMidpoint.steps2 x y u = (x + 1, y - 1) ::
        EllipseMidpoint.steps2 (x + 1) (y - 1) (u + (1 - 2 * (y - 1) + 2 * (x + 1))) := by
      rw [EllipseMidpoint.steps2, if_pos hy, if_neg hu]
    rw [hs]
    constructor
    · intro t ht
      rcases List.mem_cons.mp ht with rfl | ht
      · exact ⟨by simp only; omega, by simp only; omega, hn'⟩
      · obtain ⟨j1, j2, j3⟩ := i1 t ht
        exact ⟨j1, by omega, j3⟩
    · intro i hi0 hiy
      rcases eq_or_lt_of_le (show i ≤ y - 1 by omega) with rfl | hlt
      · exact ⟨x + 1, List.mem_cons_self _ _⟩
      · obtain ⟨a, ha⟩ := i2 i hi0 hlt
        exact ⟨a, List.mem_cons_of_mem _ ha⟩
  · -- the loop is left
    intro x y u hy _ _ _ _
    have hs : EllipseMidpoint.steps2 x y u = [] := by
      rw [EllipseMidpoint.steps2, if_neg hy]
    rw [hs]
    exact ⟨fun t ht => by simp at ht, fun i hi0 hiy => by omega⟩

/-- In the first quadrant the points of region 2 are the mirror images, in the
diagonal, of points of the octant, and the mirror image of every point of the
octant is a point of the octant or of region 2. -/
theorem quadrant_match (r : ℤ) (hr : 1 ≤ r) :
    (∀ t ∈ EllipseMidpoint.steps2 (CircleMidpoint.final 0 r (1 - r)).1
        (CircleMidpoint.final 0 r (1 - r)).2
        (((CircleMidpoint.final 0 r (1 - r)).2 - 1) * ((CircleMidpoint.final 0 r (1 - r)).2 - 1)
          + (CircleMidpoint.final 0 r (1 - r)).1 * (CircleMidpoint.final 0 r (1 - r)).1
          + (CircleMidpoint.final 0 r (1 - r)).1 - r * r),
      (t.2, t.1) ∈ (0, r) :: CircleMidpoint.steps 0 r (1 - r)) ∧
    (∀ t ∈ (0, r) :: CircleMidpoint.steps 0 r (1 - r),
      (t.2, t.1) ∈ (0, r) :: CircleMidpoint.steps 0 r (1 - r) ∨
      (t.2, t.1) ∈ EllipseMidpoint.steps2 (CircleMidpoint.final 0 r (1 - r)).1
        (CircleMidpoint.final 0 r (1 - r)).2
        (((CircleMidpoint.final 0 r (1 - r)).2 - 1) * ((CircleMidpoint.final 0 r (1 - r)).2 - 1)
          + (CircleMidpoint.final 0 r (1 - r)).1 * (CircleMidpoint.final 0 r (1 - r)).1
          + (CircleMidpoint.final 0 r (1 - r)).1 - r * r)) := by
  have hn0 : nearest r 0 r := ⟨by nlinarith, by nlinarith⟩
  obtain ⟨o1, o2, o3, o4, o5, o6, o7, o8⟩ :=
    octant_spec r 0 r (1 - r) (le_refl _) (by omega) hn0 (by ring)
  generalize CircleMidpoint.final 0 r (1 - r) = f at *
  obtain ⟨xf, yf⟩ := f
  simp only at o1 o2 o3 o4 o5 o6 o7 o8 ⊢
  obtain ⟨s1, s2⟩ := steps2_spec r xf yf
    ((yf - 1) * (yf - 1) + xf * xf + xf - r * r) o3 o1 o4 rfl
  constructor
  · intro t ht
    obtain ⟨a, i⟩ := t
    obtain ⟨h1, h2, h3⟩ := s1 (a, i) ht
    simp only at h1 h2 h3 ⊢
    obtain ⟨b, hb⟩ := o8 i h1 (by omega)
    obtain ⟨-, -, k3, -, k5, -⟩ := o7 (i, b) hb
    simp only at k3 k5
    have hab : a = b := nearest_unique r i a b h3 (k5 (by omega))
    rw [hab]
    exact hb
  · intro t ht
    obtain ⟨a, b⟩ := t
    obtain ⟨k1, k2, k3, k4, k5, k6⟩ := o7 (a, b) ht
    simp only at k1 k2 k3 k4 k5 k6 ⊢
    by_cases ha : a < yf
    · right
      obtain ⟨c, hc⟩ := s2 a k1 ha
      obtain ⟨-, -, h3⟩ := s1 (c, a) hc
      simp only at h3
      have hcb : c = b := nearest_unique r a c b h3 (k5 (by omega))
      rw [← hcb]
      exact hc
    · left
      by_cases hax : a = xf
      · have hb : b = yf := k6 hax
        subst hax hb
        rcases eq_or_lt_of_le o1 with h | h
        · rw [← h]
          rw [← h] at o5
          exact o5
        · have hxy : a = b + 1 := by omega
          have := o6 hxy
          rw [hxy] at this ⊢
          simpa using this
      · have hxy : xf = yf + 1 := by omega
        have ha' : a = yf := by omega
        have hprev := o6 hxy
        obtain ⟨-, -, -, -, m5, -⟩ := o7 (xf - 1, yf + 1) hprev
        simp only at m5
        have e : xf - 1 = a := by omega
        rw [e] at m5
        have hb : b = yf + 1 := nearest_unique r a b (yf + 1) (k5 (by omega)) (m5 (by omega))
        have hb' : b = xf := by omega
        rw [hb', ha']
        exact o5

/-- The loop of `CircleMidpoint` on an integer state plots the eight
reflections of each point of its integer trace. -/
theorem CircleMidpoint_loop_eq_steps (xc yc : ℚ) (x y p : ℤ) :
    ∀ xq yq pq : ℚ, xq = x → yq = y → pq = p →
    CircleMidpoint.loop xc yc xq yq pq =
      (CircleMidpoint.steps x y p).flatMap fun t => CirclePlotPoints xc yc t.1 t.2 := by
  refine CircleMidpoint.steps.induct
    (fun x y p => ∀ xq yq pq : ℚ, xq = x → yq = y → pq = p →
      CircleMidpoint.loop xc yc xq yq pq =
        (CircleMidpoint.steps x y p).flatMap fun t => CirclePlotPoints xc yc t.1 t.2)
    ?_ ?_ ?_ x y p
  · intro x y p hxy hp ih xq yq pq hx hy hpq
    have hxy' : xq < yq := by rw [hx, hy]; exact_mod_cast hxy
    have hp' : pq < 0 := by rw [hpq]; exact_mod_cast hp
    rw [CircleMidpoint.loop, if_pos hxy', CircleMidpoint.steps, if_pos hxy, if_pos hp]
    simp only [if_pos hp', List.flatMap_cons]
    rw [ih (xq + 1) yq (pq + (2 * (xq + 1) + 1)) (by rw [hx]; push_cast; ring) hy
      (by rw [hpq, hx]; push_cast; ring)]
    rw [hx, hy]
    push_cast
    rfl
  · intro x y p hxy hp ih xq yq pq hx hy hpq
    have hxy' : xq < yq := by rw [hx, hy]; exact_mod_cast hxy
    have hp' : ¬ pq < 0 := by rw [hpq]; exact_mod_cast hp
    rw [CircleMidpoint.loop, if_pos hxy', CircleMidpoint.steps, if_pos hxy, if_neg hp]
    simp only [if_neg hp', List.flatMap_cons]
    rw [ih (xq + 1) (yq - 1) (pq + (2 * (xq + 1 - (yq - 1)) + 1))
      (by rw [hx]; push_cast; ring) (by rw [hy]; push_cast; ring)
      (by rw [hpq, hx, hy]; push_cast; ring)]
    rw [hx, hy]
    push_cast
    rfl
  · intro x y p hxy xq yq pq hx hy _
    have hxy' : ¬ xq < yq := by rw [hx, hy]; exact_mod_cast hxy
    rw [CircleMidpoint.loop, if_neg hxy', CircleMidpoint.steps, if_neg hxy]
    rfl

/-- Region 2 of `EllipseMidpoint` with both radii `r`, on an integer state,
plots the four reflections of each point of its integer trace: an offset
`δ` of the decision variable within the stated bounds does not change any
decision. -/
theorem region2_eq_steps2 (xc yc : ℚ) (r : ℤ) (δ : ℚ) (x y u : ℤ) :
    ∀ xq yq px py pe : ℚ, xq = x → yq = y → px = 2 * (r * r) * x → py = 2 * (r * r) * y →
    pe = r * r * (u + 1 / 4) + δ →
    (0 < y → -((r : ℚ) * r) / 4 < δ ∧ δ ≤ 3 * ((r : ℚ) * r) / 4) →
    EllipseMidpoint.region2 xc yc (r * r) (2 * (r * r)) (2 * (r * r)) xq yq px py pe =
      (EllipseMidpoint.steps2 x y u).flatMap fun t => EllipsePlotPoints xc yc t.1 t.2 := by
  refine EllipseMidpoint.steps2.induct
    (fun x y u => ∀ xq yq px py pe : ℚ, xq = x → yq = y → px = 2 * (r * r) * x →
      py = 2 * (r * r) * y → pe = r * r * (u + 1 / 4) + δ →
      (0 < y → -((r : ℚ) * r) / 4 < δ ∧ δ ≤ 3 * ((r : ℚ) * r) / 4) →
      EllipseMidpoint.region2 xc yc (r * r) (2 * (r * r)) (2 * (r * r)) xq yq px py pe =
        (EllipseMidpoint.steps2 x y u).flatMap fun t => EllipsePlotPoints xc yc t.1 t.2)
    ?_ ?_ ?_ x y u
  · intro x y u hy hu ih xq yq px py pe hx hyq hpx hpy hpe hδ
    obtain ⟨d1, d2⟩ := hδ hy
    have hy' : yq > 0 := by rw [hyq]; exact_mod_cast hy
    have huq : (0 : ℚ) ≤ u := by exact_mod_cast hu
    have hrr : (0 : ℚ) ≤ (r : ℚ) * r := mul_self_nonneg _
    have hp' : pe > 0 := by
      rw [hpe]
      nlinarith [mul_nonneg hrr huq]
    rw [EllipseMidpoint.region2, if_pos hy', EllipseMidpoint.steps2, if_pos hy, if_pos hu]
    simp only [if_pos hp', List.flatMap_cons]
    rw [ih xq (yq - 1) px (py - 2 * (r * r)) (pe + (r * r - (py - 2 * (r * r)))) hx
      (by rw [hyq]; push_cast; ring) hpx (by rw [hpy]; push_cast; ring)
      (by rw [hpe, hpy]; push_cast; ring) (fun _ => ⟨d1, d2⟩)]
    rw [hx, hyq]
    push_cast
    rfl
  · intro x y u hy hu ih xq yq px py pe hx hyq hpx hpy hpe hδ
    obtain ⟨d1, d2⟩ := hδ hy
    have hy' : yq > 0 := by rw [hyq]; exact_mod_cast hy
    have huq : (u : ℚ) ≤ -1 := by exact_mod_cast (by omega : u ≤ -1)
    have hrr : (0 : ℚ) ≤ (r : ℚ) * r := mul_self_nonneg _
    have hp' : ¬ pe > 0 := by
      rw [hpe]
      nlinarith [mul_nonneg hrr (by linarith : (0 : ℚ) ≤ -1 - u)]
    rw [EllipseMidpoint.region2, if_pos hy', EllipseMidpoint.steps2, if_pos hy, if_neg hu]
    simp only [if_neg hp', List.flatMap_cons]
    rw [ih (xq + 1) (yq - 1) (px + 2 * (r * r)) (py - 2 * (r * r))
      (pe + (r * r - (py - 2 * (r * r)) + (px + 2 * (r * r))))
      (by rw [hx]; push_cast; ring) (by rw [hyq]; push_cast; ring)
      (by rw [hpx]; push_cast; ring) (by rw [hpy]; push_cast; ring)
      (by rw [hpe, hpy, hpx]; push_cast; ring) (fun _ => ⟨d1, d2⟩)]
    rw [hx, hyq]
    push_cast
    rfl
  · intro x y u hy xq yq px py pe _ hyq _ _ _ _
    have hy' : ¬ yq > 0 := by rw [hyq]; exact_mod_cast hy
    rw [EllipseMidpoint.region2, if_neg hy', EllipseMidpoint.steps2, if_neg hy]
    rfl

/-- Region 1 of `EllipseMidpoint` with both radii `r > 0`, on an integer
state and with fuel for the columns left of the diagonal, takes the steps of
the loop of `CircleMidpoint`: it plots the four reflections of each point of
the integer trace and is left in its last state. -/
theorem region1_eq_steps (xc yc : ℚ) (r : ℤ) (hr : 0 < r) (δ : ℚ)
    (hδ1 : -((r : ℚ) * r) / 4 ≤ δ) (hδ2 : δ < 3 * ((r : ℚ) * r) / 4) :
    ∀ (fuel : ℕ) (x y p : ℤ) (xq yq px py pe : ℚ), (y - x).toNat < fuel →
    xq = x → yq = y → px = 2 * (r * r) * x → py = 2 * (r * r) * y →
    pe = r * r * (p + 1 / 4) + δ →
    EllipseMidpoint.region1 xc yc (r * r) (r * r) (2 * (r * r)) (2 * (r * r)) fuel
        xq yq px py pe =
      some ((CircleMidpoint.steps x y p).flatMap fun t => EllipsePlotPoints xc yc t.1 t.2,
        ((CircleMidpoint.final x y p).1 : ℚ), ((CircleMidpoint.final x y p).2 : ℚ),
        2 * ((r : ℚ) * r) * (CircleMidpoint.final x y p).1,
        2 * ((r : ℚ) * r) * (CircleMidpoint.final x y p).2) := by
  have hrq : (0 : ℚ) < r := by exact_mod_cast hr
  have hrr : (0 : ℚ) < (r : ℚ) * r := mul_pos hrq hrq
  intro fuel
  induction fuel with
  | zero => intro x y p xq yq px py pe h; omega
  | succ fuel ih =>
    intro x y p xq yq px py pe hfuel hx hy hpx hpy hpe
    by_cases hxy : x < y
    · have hxyq : (x : ℚ) < y := by exact_mod_cast hxy
      have hg : px < py := by
        rw [hpx, hpy]
        nlinarith
      rw [EllipseMidpoint.region1, if_pos hg, CircleMidpoint.steps, if_pos hxy,
        CircleMidpoint.final, if_pos hxy]
      by_cases hp : p < 0
      · have hpq : (p : ℚ) ≤ -1 := by exact_mod_cast (by omega : p ≤ -1)
        have hp' : pe < 0 := by
          rw [hpe]
          nlinarith [mul_nonneg hrr.le (by linarith : (0 : ℚ) ≤ -1 - p)]
        simp only [if_pos hp', if_pos hp, List.flatMap_cons]
        rw [ih (x + 1) y (p + (2 * (x + 1) + 1)) (xq + 1) yq (px + 2 * (r * r)) py
          (pe + (r * r + (px + 2 * (r * r)))) (by omega) (by rw [hx]; push_cast; ring) hy
          (by rw [hpx]; push_cast; ring) hpy (by rw [hpe, hpx]; push_cast; ring)]
        rw [hx, hy]
        push_cast
        rfl
      · have hpq : (0 : ℚ) ≤ p := by exact_mod_cast (by omega : 0 ≤ p)
        have hp' : ¬ pe < 0 := by
          rw [hpe]
          nlinarith [mul_nonneg hrr.le hpq]
        simp only [if_neg hp', if_neg hp, List.flatMap_cons]
        rw [ih (x + 1) (y - 1) (p + (2 * ((x + 1) - (y - 1)) + 1)) (xq + 1) (yq - 1)
          (px + 2 * (r * r)) (py - 2 * (r * r))
          (pe + (r * r + (px + 2 * (r * r)) - (py - 2 * (r * r)))) (by omega)
          (by rw [hx]; push_cast; ring) (by rw [hy]; push_cast; ring)
          (by rw [hpx]; push_cast; ring) (by rw [hpy]; push_cast; ring)
          (by rw [hpe, hpx, hpy]; push_cast; ring)]
        rw [hx, hy]
        push_cast
        rfl
    · have hxyq : ¬ (x : ℚ) < y := by exact_mod_cast hxy
      have hg : ¬ px < py := by
        rw [hpx, hpy]
        intro h
        apply hxyq
        nlinarith
      rw [EllipseMidpoint.region1, if_neg hg, CircleMidpoint.steps, if_neg hxy,
        CircleMidpoint.final, if_neg hxy, hx, hy, hpx, hpy]
      rfl

/-- The error of `ROUND`: truncation of `v + 1/2` lies strictly between
`v - 1/2` and `v + 3/2`. -/
theorem ROUND_bounds (v : ℚ) : v - 1 / 2 < (ROUND v : ℚ) ∧ (ROUND v : ℚ) < v + 3 / 2 := by
  unfold ROUND toInt
  split_ifs with h
  · have h1 := Int.floor_le (v + 1 / 2)
    have h2 := Int.lt_floor_add_one (v + 1 / 2)
    constructor <;> linarith
  · have h1 := Int.le_ceil (v + 1 / 2)
    have h2 := Int.ceil_lt_add_one (v + 1 / 2)
    constructor <;> linarith

/-- `ROUND(0.25) = 0`. -/
theorem ROUND_quarter : ROUND (1 / 4) = 0 := by
  unfold ROUND toInt
  rw [if_pos (by norm_num), Int.floor_eq_iff]
  norm_num

/-- With radius 1 the octant loop is left at `(1, 0)`. -/
theorem CircleMidpoint_final_one : CircleMidpoint.final 0 1 (1 - 1) = (1, 0) := by
  rw [CircleMidpoint.final, if_pos (by decide), if_neg (by decide)]
  rw [CircleMidpoint.final, if_neg (by decide)]
  rfl

/-- `EllipseMidpoint` with both radii the integer `r ≥ 1`, given fuel beyond
`r`, plots the four reflections of the points of the octant trace of the
circle and then those of the region 2 trace. -/
theorem EllipseMidpoint_eq_traces (xc yc : ℚ) (r : ℤ) (hr : 1 ≤ r) (fuel : ℕ)
    (hfuel : r.toNat < fuel) :
    EllipseMidpoint fuel xc yc r r = some
      ((((0, r) :: CircleMidpoint.steps 0 r (1 - r)).flatMap
          fun t => EllipsePlotPoints xc yc t.1 t.2) ++
        (EllipseMidpoint.steps2 (CircleMidpoint.final 0 r (1 - r)).1
          (CircleMidpoint.final 0 r (1 - r)).2
          (((CircleMidpoint.final 0 r (1 - r)).2 - 1) *
              ((CircleMidpoint.final 0 r (1 - r)).2 - 1)
            + (CircleMidpoint.final 0 r (1 - r)).1 * (CircleMidpoint.final 0 r (1 - r)).1
            + (CircleMidpoint.final 0 r (1 - r)).1 - r * r)).flatMap
          fun t => EllipsePlotPoints xc yc t.1 t.2) := by
  have hrq : (1 : ℚ) ≤ r := by exact_mod_cast hr
  -- the offset of the first decision variable
  have hδ1 : -((r : ℚ) * r) / 4 ≤
        (ROUND (r * r - r * r * r + 1 / 4 * (r * r)) : ℚ) - r * r * (((1 - r : ℤ) : ℚ) + 1 / 4) ∧
      (ROUND (r * r - r * r * r + 1 / 4 * (r * r)) : ℚ) - r * r * (((1 - r : ℤ) : ℚ) + 1 / 4)
        < 3 * ((r : ℚ) * r) / 4 := by
    rcases eq_or_lt_of_le hr with h1 | h2
    · subst h1
      have e : ((1 : ℤ) : ℚ) * (1 : ℤ) - (1 : ℤ) * (1 : ℤ) * (1 : ℤ) + 1 / 4 * ((1 : ℤ) * (1 : ℤ))
          = 1 / 4 := by norm_num
      rw [e, ROUND_quarter]
      norm_num
    · have h2q : (2 : ℚ) ≤ r := by exact_mod_cast (by omega : 2 ≤ r)
      have hb := ROUND_bounds ((r : ℚ) * r - r * r * r + 1 / 4 * (r * r))
      push_cast
      constructor <;> nlinarith
  have h1 := region1_eq_steps xc yc r (by omega) _ hδ1.1 hδ1.2 fuel 0 r (1 - r) 0 r 0
    (2 * (r * r) * r) (ROUND (r * r - r * r * r + 1 / 4 * (r * r)) : ℚ) (by simpa using hfuel)
    (by simp) rfl (by simp) rfl (by ring)
  -- the offset of the second decision variable
  have hδ2 : ∀ w : ℚ, 0 < (CircleMidpoint.final 0 r (1 - r)).2 →
      -((r : ℚ) * r) / 4 < (ROUND w : ℚ) - w ∧ (ROUND w : ℚ) - w ≤ 3 * ((r : ℚ) * r) / 4 := by
    intro w hpos
    rcases eq_or_lt_of_le hr with h1 | h2
    · subst h1
      rw [CircleMidpoint_final_one] at hpos
      exact absurd hpos (by decide)
    · have h2q : (2 : ℚ) ≤ r := by exact_mod_cast (by omega : 2 ≤ r)
      have hb := ROUND_bounds w
      constructor <;> nlinarith
  generalize CircleMidpoint.final 0 r (1 - r) = f at h1 hδ2 ⊢
  obtain ⟨xf, yf⟩ := f
  simp only at h1 hδ2 ⊢
  have h2 := region2_eq_steps2 xc yc r
    ((ROUND ((r : ℚ) * r * ((xf : ℚ) + 1 / 2) * ((xf : ℚ) + 1 / 2) +
        (r : ℚ) * r * ((yf : ℚ) - 1) * ((yf : ℚ) - 1) - (r : ℚ) * r * ((r : ℚ) * r)) : ℚ) -
      ((r : ℚ) * r * ((xf : ℚ) + 1 / 2) * ((xf : ℚ) + 1 / 2) +
        (r : ℚ) * r * ((yf : ℚ) - 1) * ((yf : ℚ) - 1) - (r : ℚ) * r * ((r : ℚ) * r)))
    xf yf ((yf - 1) * (yf - 1) + xf * xf + xf - r * r) xf yf
    (2 * ((r : ℚ) * r) * xf) (2 * ((r : ℚ) * r) * yf)
    (ROUND ((r : ℚ) * r * ((xf : ℚ) + 1 / 2) * ((xf : ℚ) + 1 / 2) +
        (r : ℚ) * r * ((yf : ℚ) - 1) * ((yf : ℚ) - 1) - (r : ℚ) * r * ((r : ℚ) * r)) : ℚ)
    rfl rfl rfl rfl (by push_cast; ring) (hδ2 _)
  unfold EllipseMidpoint
  simp only [h1, h2, List.flatMap_cons, List.append_assoc]
  rfl

/-- `CircleMidpoint` with an integer radius plots the eight reflections of
the points of its octant trace. -/
theorem CircleMidpoint_eq_traces (xc yc : ℚ) (r : ℤ) :
    CircleMidpoint xc yc r = ((0, r) :: CircleMidpoint.steps 0 r (1 - r)).flatMap
      fun t => CirclePlotPoints xc yc t.1 t.2 := by
  unfold CircleMidpoint
  simp only []
  rw [CircleMidpoint_loop_eq_steps xc yc 0 r (1 - r) 0 r (1 - r) (by simp) rfl
    (by push_cast; ring)]
  simp [List.flatMap_cons]

/-- The eight points of `CirclePlotPoints` are the four of `EllipsePlotPoints`
and the four of `EllipsePlotPoints` with the offsets exchanged. -/
theorem mem_CirclePlotPoints_iff (xc yc a b : ℚ) (q : Point) :
    q ∈ CirclePlotPoints xc yc a b ↔
      q ∈ EllipsePlotPoints xc yc a b ∨ q ∈ EllipsePlotPoints xc yc b a := by
  simp only [CirclePlotPoints, EllipsePlotPoints, List.mem_cons, List.mem_singleton,
    List.not_mem_nil, or_false]
  tauto

/-- On a negative integer `ROUND` yields the next integer up. -/
theorem ROUND_negInt (n : ℤ) (h : n < 0) : ROUND (n : ℚ) = n + 1 := by
  have hq : (n : ℚ) ≤ -1 := by exact_mod_cast (by omega : n ≤ -1)
  unfold ROUND toInt
  rw [if_neg (by linarith), Int.ceil_eq_iff]
  constructor <;> push_cast <;> linarith

/-- On a non-negative integer `ROUND` is the identity. -/
theorem ROUND_nonnegInt (n : ℤ) (h : 0 ≤ n) : ROUND (n : ℚ) = n := by
  have hq : (0 : ℚ) ≤ n := by exact_mod_cast h
  rw [ROUND_of_nonneg _ hq, Int.floor_eq_iff]
  constructor <;> linarith

/-- C12 fails on the code at `v = -3`: `ROUND(-3)` is `(int)(-2.5) = -2`, the
conversion truncating toward zero, while `floor(-3 + 0.5) = -3`. -/
theorem ROUND_truncates_toward_zero :
    ROUND (-3) = -2 ∧ ⌊(-3 : ℚ) + 1 / 2⌋ = -3 ∧ ROUND (-3) ≠ ⌊(-3 : ℚ) + 1 / 2⌋ := by
  have h1 : ROUND (-3) = -2 := by
    have := ROUND_negInt (-3) (by decide)
    simpa using this
  have h2 : ⌊(-3 : ℚ) + 1 / 2⌋ = -3 := by
    rw [Int.floor_eq_iff]
    norm_num
  exact ⟨h1, h2, by rw [h1, h2]; decide⟩

/-- With an integer number of steps, of which `m + 1` are left, the loop of
`LineDDA` plots `m` points and then the rounded position reached after all
the steps left. -/
theorem LineDDA_loop_ends (N : ℕ) (xInc yInc : ℚ) :
    ∀ (m k : ℕ) (x y : ℚ), k + (m + 1) = N →
      ∃ mid : List Point, mid.length = m ∧
        LineDDA.loop N xInc yInc k x y = mid ++
          [(((ROUND (x + (m + 1) * xInc) : ℤ) : ℚ), ((ROUND (y + (m + 1) * yInc) : ℤ) : ℚ))] := by
  intro m
  induction m with
  | zero =>
    intro k x y h
    have hk : (k : ℚ) < N := by exact_mod_cast (by omega : k < N)
    have hk1 : ¬ ((k + 1 : ℕ) : ℚ) < N := by
      have : k + 1 = N := by omega
      rw [this]; exact lt_irrefl _
    refine ⟨[], rfl, ?_⟩
    rw [LineDDA.loop, if_pos hk]
    simp only []
    rw [LineDDA.loop, if_neg hk1]
    simp
  | succ m ih =>
    intro k x y h
    have hk : (k : ℚ) < N := by exact_mod_cast (by omega : k < N)
    obtain ⟨mid, hlen, hmid⟩ := ih (k + 1) (x + xInc) (y + yInc) (by omega)
    refine ⟨(((ROUND (x + xInc) : ℤ) : ℚ), ((ROUND (y + yInc) : ℤ) : ℚ)) :: mid, by simp [hlen], ?_⟩
    rw [LineDDA.loop, if_pos hk]
    simp only []
    rw [hmid]
    have e1 : x + xInc + ((m : ℚ) + 1) * xInc = x + (((m + 1 : ℕ) : ℚ) + 1) * xInc := by
      push_cast; ring
    have e2 : y + yInc + ((m : ℚ) + 1) * yInc = y + (((m + 1 : ℕ) : ℚ) + 1) * yInc := by
      push_cast; ring
    rw [e1, e2]
    rfl

/-- For integer end points that differ, `LineDDA` plots the rounded start,
then `steps - 1` points, then the rounded end: `steps + 1` points in all,
with `steps = max(|xb - xa|, |yb - ya|)`. -/
theorem LineDDA_integer_endpoints (xa ya xb yb : ℤ) (h : xa ≠ xb ∨ ya ≠ yb) :
    ∃ mid : List Point, ((mid.length : ℤ) + 1 = max |xb - xa| |yb - ya|) ∧
      LineDDA xa ya xb yb =
        (((ROUND xa : ℤ) : ℚ), ((ROUND ya : ℤ) : ℚ)) ::
          (mid ++ [(((ROUND xb : ℤ) : ℚ), ((ROUND yb : ℤ) : ℚ))]) := by
  obtain ⟨m, hm⟩ : ∃ m : ℕ, ((m : ℤ) + 1 = max |xb - xa| |yb - ya|) := by
    have hpos : 0 < max |xb - xa| |yb - ya| := by
      rcases h with h | h
      · exact lt_max_of_lt_left (abs_pos.mpr (sub_ne_zero.mpr (Ne.symm h)))
      · exact lt_max_of_lt_right (abs_pos.mpr (sub_ne_zero.mpr (Ne.symm h)))
    exact ⟨(max |xb - xa| |yb - ya| - 1).toNat, by omega⟩
  have hsteps : (if |(xb : ℚ) - xa| > |(yb : ℚ) - ya| then |(xb : ℚ) - xa| else |(yb : ℚ) - ya|)
      = ((m + 1 : ℕ) : ℚ) := by
    have e : ((m + 1 : ℕ) : ℚ) = ((max |xb - xa| |yb - ya| : ℤ) : ℚ) := by
      rw [← hm]; push_cast; ring
    rw [e]
    push_cast
    split_ifs with hc
    · rw [max_eq_left (le_of_lt hc)]
    · rw [max_eq_right (not_lt.mp hc)]
  obtain ⟨mid, hlen, hmid⟩ := LineDDA_loop_ends (m + 1)
    (((xb : ℚ) - xa) / ((m + 1 : ℕ) : ℚ)) (((yb : ℚ) - ya) / ((m + 1 : ℕ) : ℚ)) m 0 xa ya
    (by omega)
  refine ⟨mid, by rw [hlen]; exact hm, ?_⟩
  unfold LineDDA
  simp only [hsteps]
  rw [hmid]
  have hne : ((m + 1 : ℕ) : ℚ) ≠ 0 := by positivity
  have e1 : (xa : ℚ) + ((m : ℚ) + 1) * (((xb : ℚ) - xa) / ((m + 1 : ℕ) : ℚ)) = xb := by
    push_cast at hne ⊢
    field_simp
  have e2 : (ya : ℚ) + ((m : ℚ) + 1) * (((yb : ℚ) - ya) / ((m + 1 : ℕ) : ℚ)) = yb := by
    push_cast at hne ⊢
    field_simp
  rw [e1, e2]

/-- For non-negative integer end points that differ, `LineDDA` plots the start
point first and the end point last, `steps + 1` points in all. -/
theorem LineDDA_nonneg_endpoints (xa ya xb yb : ℕ) (h : xa ≠ xb ∨ ya ≠ yb) :
    ∃ mid : List Point,
      ((mid.length : ℤ) + 1 = max |(xb : ℤ) - xa| |(yb : ℤ) - ya|) ∧
      LineDDA xa ya xb yb = ((xa : ℚ), (ya : ℚ)) :: (mid ++ [((xb : ℚ), (yb : ℚ))]) := by
  obtain ⟨mid, hlen, hmid⟩ := LineDDA_integer_endpoints xa ya xb yb (by omega)
  refine ⟨mid, hlen, ?_⟩
  simp only [Int.cast_natCast] at hmid
  rw [hmid, ROUND_natCast, ROUND_natCast, ROUND_natCast, ROUND_natCast]
  simp

/-- C11 fails on the code at `(xa, ya) = (-3, 0)`, `(xb, yb) = (-1, 0)`, where
`steps = 2`: `LineDDA` plots `steps + 1 = 3` points, but the first is
`(-2, 0)`, not `(-3, 0)`, and the last is `(0, 0)`, not `(-1, 0)`: `ROUND`
moves every negative integer abscissa one pixel up. -/
theorem LineDDA_negative_endpoints :
    LineDDA (-3) 0 (-1) 0 = [(-2, 0), (-1, 0), (0, 0)] ∧
    ((-2 : ℚ), (0 : ℚ)) ≠ (-3, 0) ∧ ((0 : ℚ), (0 : ℚ)) ≠ (-1, 0) := by
  have r3 : ROUND (-3) = -2 := by simpa using ROUND_negInt (-3) (by decide)
  have r2 : ROUND (-2) = -1 := by simpa using ROUND_negInt (-2) (by decide)
  have r1 : ROUND (-1) = 0 := by simpa using ROUND_negInt (-1) (by decide)
  have r0 : ROUND 0 = 0 := by simpa using ROUND_nonnegInt 0 (by decide)
  refine ⟨?_, ?_, ?_⟩
  · simp only [LineDDA]
    norm_num
    rw [LineDDA.loop]; norm_num
    rw [LineDDA.loop]; norm_num
    rw [LineDDA.loop]; norm_num
    simp [r3, r2, r1, r0]
  · intro h
    have := congrArg Prod.fst h
    norm_num at this
  · intro h
    have := congrArg Prod.fst h
    norm_num at this

/-! ## The clipping loop: no division by zero, termination -/

/-- The bit tests of an outcode, for a window with `xwmin ≤ xwmax` and
`ywmin ≤ ywmax`. -/
theorem ComputeOutCode_tests (x y xwmin ywmin xwmax ywmax : ℚ)
    (hx : xwmin ≤ xwmax) (hy : ywmin ≤ ywmax) :
    (ComputeOutCode x y xwmin ywmin xwmax ywmax &&& TOP ≠ 0 ↔ y > ywmax) ∧
    (ComputeOutCode x y xwmin ywmin xwmax ywmax &&& BOTTOM ≠ 0 ↔ y < ywmin) ∧
    (ComputeOutCode x y xwmin ywmin xwmax ywmax &&& RIGHT ≠ 0 ↔ x > xwmax) ∧
    (ComputeOutCode x y xwmin ywmin xwmax ywmax &&& LEFT ≠ 0 ↔ x < xwmin) := by
  refine ⟨?_, ?_, ?_, ?_⟩ <;>
    unfold ComputeOutCode <;> split_ifs <;> simp only [not_lt, gt_iff_lt] at * <;>
    simp +decide [INSIDE, LEFT, RIGHT, BOTTOM, TOP] <;> linarith

/-- An outcode is below 16. -/
theorem ComputeOutCode_lt (x y xwmin ywmin xwmax ywmax : ℚ) :
    ComputeOutCode x y xwmin ywmin xwmax ywmax < 16 := by
  unfold ComputeOutCode
  split_ifs <;> simp +decide [INSIDE, LEFT, RIGHT, BOTTOM, TOP]

/-- The AND of two four-bit codes is nonzero exactly when they share a bit. -/
theorem and_ne_zero_iff_common_bit (a b : ℕ) (ha : a < 16) (hb : b < 16) :
    a &&& b ≠ 0 ↔
      (a &&& TOP ≠ 0 ∧ b &&& TOP ≠ 0) ∨ (a &&& BOTTOM ≠ 0 ∧ b &&& BOTTOM ≠ 0) ∨
      (a &&& RIGHT ≠ 0 ∧ b &&& RIGHT ≠ 0) ∨ (a &&& LEFT ≠ 0 ∧ b &&& LEFT ≠ 0) := by
  have key : ∀ u v : Fin 16, (u.val &&& v.val ≠ 0 ↔
      (u.val &&& 8 ≠ 0 ∧ v.val &&& 8 ≠ 0) ∨ (u.val &&& 4 ≠ 0 ∧ v.val &&& 4 ≠ 0) ∨
      (u.val &&& 2 ≠ 0 ∧ v.val &&& 2 ≠ 0) ∨ (u.val &&& 1 ≠ 0 ∧ v.val &&& 1 ≠ 0)) := by
    decide
  exact key ⟨a, ha⟩ ⟨b, hb⟩

/-- The OR of two four-bit codes is zero only when both are. -/
theorem or_eq_zero_of_lt (a b : ℕ) (ha : a < 16) (hb : b < 16) (h : a ||| b = 0) :
    a = 0 ∧ b = 0 := by
  have key : ∀ u v : Fin 16, u.val ||| v.val = 0 → u.val = 0 ∧ v.val = 0 := by
    decide
  exact key ⟨a, ha⟩ ⟨b, hb⟩ h

/-- The AND of two outcodes is nonzero exactly when the two points lie
beyond one and the same boundary. -/
theorem ComputeOutCode_and_ne_zero (x1 y1 x2 y2 xwmin ywmin xwmax ywmax : ℚ)
    (hx : xwmin ≤ xwmax) (hy : ywmin ≤ ywmax) :
    ComputeOutCode x1 y1 xwmin ywmin xwmax ywmax &&&
        ComputeOutCode x2 y2 xwmin ywmin xwmax ywmax ≠ 0 ↔
      (y1 > ywmax ∧ y2 > ywmax) ∨ (y1 < ywmin ∧ y2 < ywmin) ∨
      (x1 > xwmax ∧ x2 > xwmax) ∨ (x1 < xwmin ∧ x2 < xwmin) := by
  obtain ⟨a1, a2, a3, a4⟩ := ComputeOutCode_tests x1 y1 xwmin ywmin xwmax ywmax hx hy
  obtain ⟨b1, b2, b3, b4⟩ := ComputeOutCode_tests x2 y2 xwmin ywmin xwmax ywmax hx hy
  rw [and_ne_zero_iff_common_bit _ _ (ComputeOutCode_lt x1 y1 xwmin ywmin xwmax ywmax)
    (ComputeOutCode_lt x2 y2 xwmin ywmin xwmax ywmax), a1, a2, a3, a4, b1, b2, b3, b4]

/-- An outcode is nonzero exactly when the point lies beyond a boundary. -/
theorem ComputeOutCode_ne_zero (x y xwmin ywmin xwmax ywmax : ℚ) :
    ComputeOutCode x y xwmin ywmin xwmax ywmax ≠ 0 ↔
      y > ywmax ∨ y < ywmin ∨ x > xwmax ∨ x < xwmin := by
  rw [Ne, ComputeOutCode_eq_zero_iff]
  constructor
  · intro h
    by_contra hc
    push_neg at hc
    exact h ⟨hc.2.2.2, hc.2.2.1, hc.2.1, hc.1⟩
  · rintro h ⟨h1, h2, h3, h4⟩
    rcases h with h | h | h | h <;> linarith

/-- The intersection step in terms of the position of the point `(cx, cy)`
whose outcode selects the boundary. -/
theorem intersect_of_ComputeOutCode (xwmin ywmin xwmax ywmax x1 y1 x2 y2 cx cy : ℚ)
    (hx : xwmin ≤ xwmax) (hy : ywmin ≤ ywmax) :
    CohenSutherlandLineClipping.intersect xwmin ywmin xwmax ywmax x1 y1 x2 y2
        (ComputeOutCode cx cy xwmin ywmin xwmax ywmax) =
      if cy > ywmax then
        if y2 - y1 = 0 then Crossing.divByZero
        else Crossing.point (x1 + (x2 - x1) * (ywmax - y1) / (y2 - y1)) ywmax
      else if cy < ywmin then
        if y2 - y1 = 0 then Crossing.divByZero
        else Crossing.point (x1 + (x2 - x1) * (ywmin - y1) / (y2 - y1)) ywmin
      else if cx > xwmax then
        if x2 - x1 = 0 then Crossing.divByZero
        else Crossing.point xwmax (y1 + (y2 - y1) * (xwmax - x1) / (x2 - x1))
      else if cx < xwmin then
        if x2 - x1 = 0 then Crossing.divByZero
        else Crossing.point xwmin (y1 + (y2 - y1) * (xwmin - x1) / (x2 - x1))
      else Crossing.unset := by
  obtain ⟨a1, a2, a3, a4⟩ := ComputeOutCode_tests cx cy xwmin ywmin xwmax ywmax hx hy
  unfold CohenSutherlandLineClipping.intersect
  simp only [a1, a2, a3, a4]

/-- A point of the line through `(a, u)` and `(b, v)` whose first coordinate
`c` lies between `a` and `b` has its second coordinate between `u` and `v`. -/
theorem cross_between (a b c u v : ℚ) (hab : b - a ≠ 0) (h1 : min a b ≤ c)
    (h2 : c ≤ max a b) :
    min u v ≤ u + (v - u) * (c - a) / (b - a) ∧
      u + (v - u) * (c - a) / (b - a) ≤ max u v := by
  have ht : 0 ≤ (c - a) / (b - a) ∧ (c - a) / (b - a) ≤ 1 := by
    rcases lt_or_gt_of_ne (sub_ne_zero.mp hab) with h | h
    · have hpos : b - a < 0 := by linarith
      rw [min_eq_right h.le] at h1
      rw [max_eq_left h.le] at h2
      exact ⟨div_nonneg_of_nonpos (by linarith) hpos.le,
        (div_le_one_of_neg hpos).mpr (by linarith)⟩
    · have hpos : 0 < b - a := by linarith
      rw [min_eq_left h.le] at h1
      rw [max_eq_right h.le] at h2
      exact ⟨div_nonneg (by linarith) hpos.le, (div_le_one hpos).mpr (by linarith)⟩
  rw [mul_div_assoc]
  exact between_of_param (min u v) (max u v) u v _ ht.1 ht.2
    ⟨min_le_left _ _, le_max_left _ _⟩ ⟨min_le_right _ _, le_max_right _ _⟩

/-- An indicator is monotone in its condition. -/
theorem indicator_le (P Q : Prop) [Decidable P] [Decidable Q] (h : P → Q) :
    (if P then 1 else 0 : ℕ) ≤ if Q then 1 else 0 := by
  split_ifs with hp hq <;> first | omega | exact absurd (h hp) hq

/-- Replacing the first end point by a point between the two end points
that is not beyond a boundary which the first end point alone was beyond
lowers the count of active boundaries. -/
theorem active_lt_of_replace_first (xwmin ywmin xwmax ywmax x1 y1 x2 y2 x y : ℚ)
    (hbx : min x1 x2 ≤ x ∧ x ≤ max x1 x2) (hby : min y1 y2 ≤ y ∧ y ≤ max y1 y2)
    (hB : (y1 > ywmax ∧ ¬ y2 > ywmax ∧ ¬ y > ywmax) ∨ (y1 < ywmin ∧ ¬ y2 < ywmin ∧ ¬ y < ywmin) ∨
      (x1 > xwmax ∧ ¬ x2 > xwmax ∧ ¬ x > xwmax) ∨ (x1 < xwmin ∧ ¬ x2 < xwmin ∧ ¬ x < xwmin)) :
    CohenSutherlandLineClipping.active xwmin ywmin xwmax ywmax x y x2 y2 <
      CohenSutherlandLineClipping.active xwmin ywmin xwmax ywmax x1 y1 x2 y2 := by
  have mT : (y > ywmax ∨ y2 > ywmax) → (y1 > ywmax ∨ y2 > ywmax) := by
    rintro (h | h)
    · exact lt_max_iff.mp (lt_of_lt_of_le h hby.2)
    · exact Or.inr h
  have mB : (y < ywmin ∨ y2 < ywmin) → (y1 < ywmin ∨ y2 < ywmin) := by
    rintro (h | h)
    · exact min_lt_iff.mp (lt_of_le_of_lt hby.1 h)
    · exact Or.inr h
  have mR : (x > xwmax ∨ x2 > xwmax) → (x1 > xwmax ∨ x2 > xwmax) := by
    rintro (h | h)
    · exact lt_max_iff.mp (lt_of_lt_of_le h hbx.2)
    · exact Or.inr h
  have mL : (x < xwmin ∨ x2 < xwmin) → (x1 < xwmin ∨ x2 < xwmin) := by
    rintro (h | h)
    · exact min_lt_iff.mp (lt_of_le_of_lt hbx.1 h)
    · exact Or.inr h
  have eT := indicator_le _ _ mT
  have eB := indicator_le _ _ mB
  have eR := indicator_le _ _ mR
  have eL := indicator_le _ _ mL
  unfold CohenSutherlandLineClipping.active
  rcases hB with ⟨h1, h2, h3⟩ | ⟨h1, h2, h3⟩ | ⟨h1, h2, h3⟩ | ⟨h1, h2, h3⟩
  · have n0 : (if y > ywmax ∨ y2 > ywmax then 1 else 0 : ℕ) = 0 :=
      if_neg (by rintro (h | h) <;> contradiction)
    have n1 : (if y1 > ywmax ∨ y2 > ywmax then 1 else 0 : ℕ) = 1 := if_pos (Or.inl h1)
    omega
  · have n0 : (if y < ywmin ∨ y2 < ywmin then 1 else 0 : ℕ) = 0 :=
      if_neg (by rintro (h | h) <;> contradiction)
    have n1 : (if y1 < ywmin ∨ y2 < ywmin then 1 else 0 : ℕ) = 1 := if_pos (Or.inl h1)
    omega
  · have n0 : (if x > xwmax ∨ x2 > xwmax then 1 else 0 : ℕ) = 0 :=
      if_neg (by rintro (h | h) <;> contradiction)
    have n1 : (if x1 > xwmax ∨ x2 > xwmax then 1 else 0 : ℕ) = 1 := if_pos (Or.inl h1)
    omega
  · have n0 : (if x < xwmin ∨ x2 < xwmin then 1 else 0 : ℕ) = 0 :=
      if_neg (by rintro (h | h) <;> contradiction)
    have n1 : (if x1 < xwmin ∨ x2 < xwmin then 1 else 0 : ℕ) = 1 := if_pos (Or.inl h1)
    omega

/-- The count of active boundaries does not depend on the order of the end
points. -/
theorem active_comm (xwmin ywmin xwmax ywmax x1 y1 x2 y2 : ℚ) :
    CohenSutherlandLineClipping.active xwmin ywmin xwmax ywmax x1 y1 x2 y2 =
      CohenSutherlandLineClipping.active xwmin ywmin xwmax ywmax x2 y2 x1 y1 := by
  unfold CohenSutherlandLineClipping.active
  simp only [or_comm]

/-- The same with the second end point replaced. -/
theorem active_lt_of_replace_second (xwmin ywmin xwmax ywmax x1 y1 x2 y2 x y : ℚ)
    (hbx : min x1 x2 ≤ x ∧ x ≤ max x1 x2) (hby : min y1 y2 ≤ y ∧ y ≤ max y1 y2)
    (hB : (y2 > ywmax ∧ ¬ y1 > ywmax ∧ ¬ y > ywmax) ∨ (y2 < ywmin ∧ ¬ y1 < ywmin ∧ ¬ y < ywmin) ∨
      (x2 > xwmax ∧ ¬ x1 > xwmax ∧ ¬ x > xwmax) ∨ (x2 < xwmin ∧ ¬ x1 < xwmin ∧ ¬ x < xwmin)) :
    CohenSutherlandLineClipping.active xwmin ywmin xwmax ywmax x1 y1 x y <
      CohenSutherlandLineClipping.active xwmin ywmin xwmax ywmax x1 y1 x2 y2 := by
  rw [active_comm xwmin ywmin xwmax ywmax x1 y1 x y,
    active_comm xwmin ywmin xwmax ywmax x1 y1 x2 y2]
  exact active_lt_of_replace_first xwmin ywmin xwmax ywmax x2 y2 x1 y1 x y
    (by rw [min_comm, max_comm]; exact hbx) (by rw [min_comm, max_comm]; exact hby) hB

/-- One pass through the intersection branch, for a window with
`xwmin ≤ xwmax` and `ywmin ≤ ywmax` and outcodes that belong to the
current end points: the formula used has a nonzero divisor, it yields a
point, and replacing the selected end point by it lowers the count of
active boundaries. -/
theorem clip_step (xwmin ywmin xwmax ywmax x1 y1 x2 y2 : ℚ)
    (hx : xwmin ≤ xwmax) (hy : ywmin ≤ ywmax)
    (hor : ¬ (ComputeOutCode x1 y1 xwmin ywmin xwmax ywmax |||
      ComputeOutCode x2 y2 xwmin ywmin xwmax ywmax = 0))
    (hand : ¬ (ComputeOutCode x1 y1 xwmin ywmin xwmax ywmax &&&
      ComputeOutCode x2 y2 xwmin ywmin xwmax ywmax ≠ 0)) :
    ∃ x y : ℚ,
      CohenSutherlandLineClipping.intersect xwmin ywmin xwmax ywmax x1 y1 x2 y2
        (if ComputeOutCode x1 y1 xwmin ywmin xwmax ywmax ≠ 0
          then ComputeOutCode x1 y1 xwmin ywmin xwmax ywmax
          else ComputeOutCode x2 y2 xwmin ywmin xwmax ywmax) = Crossing.point x y ∧
      (ComputeOutCode x1 y1 xwmin ywmin xwmax ywmax ≠ 0 →
        CohenSutherlandLineClipping.active xwmin ywmin xwmax ywmax x y x2 y2 <
          CohenSutherlandLineClipping.active xwmin ywmin xwmax ywmax x1 y1 x2 y2) ∧
      (¬ ComputeOutCode x1 y1 xwmin ywmin xwmax ywmax ≠ 0 →
        ComputeOutCode x2 y2 xwmin ywmin xwmax ywmax ≠
          ComputeOutCode x1 y1 xwmin ywmin xwmax ywmax ∧
        CohenSutherlandLineClipping.active xwmin ywmin xwmax ywmax x1 y1 x y <
          CohenSutherlandLineClipping.active xwmin ywmin xwmax ywmax x1 y1 x2 y2) := by
  rw [ComputeOutCode_and_ne_zero x1 y1 x2 y2 xwmin ywmin xwmax ywmax hx hy] at hand
  push_neg at hand
  obtain ⟨nT, nB, nR, nL⟩ := hand
  by_cases h1 : ComputeOutCode x1 y1 xwmin ywmin xwmax ywmax ≠ 0
  · -- the first end point is replaced
    rw [if_pos h1, intersect_of_ComputeOutCode xwmin ywmin xwmax ywmax x1 y1 x2 y2 x1 y1 hx hy]
    have hout := (ComputeOutCode_ne_zero x1 y1 xwmin ywmin xwmax ywmax).mp h1
    by_cases hT : y1 > ywmax
    · have h2 := nT hT
      have hd : ¬ y2 - y1 = 0 := by intro e; linarith
      rw [if_pos hT, if_neg hd]
      refine ⟨_, _, rfl, fun _ => ?_, fun h => absurd h1 h⟩
      exact active_lt_of_replace_first xwmin ywmin xwmax ywmax x1 y1 x2 y2 _ _
        (cross_between y1 y2 ywmax x1 x2 hd (min_le_of_right_le h2) (le_max_of_le_left hT.le))
        ⟨min_le_of_right_le h2, le_max_of_le_left hT.le⟩
        (Or.inl ⟨hT, not_lt.mpr h2, lt_irrefl _⟩)
    · by_cases hB : y1 < ywmin
      · have h2 := nB hB
        have hd : ¬ y2 - y1 = 0 := by intro e; linarith
        rw [if_neg hT, if_pos hB, if_neg hd]
        refine ⟨_, _, rfl, fun _ => ?_, fun h => absurd h1 h⟩
        exact active_lt_of_replace_first xwmin ywmin xwmax ywmax x1 y1 x2 y2 _ _
          (cross_between y1 y2 ywmin x1 x2 hd (min_le_of_left_le hB.le) (le_max_of_le_right h2))
          ⟨min_le_of_left_le hB.le, le_max_of_le_right h2⟩
          (Or.inr (Or.inl ⟨hB, not_lt.mpr h2, lt_irrefl _⟩))
      · by_cases hR : x1 > xwmax
        · have h2 := nR hR
          have hd : ¬ x2 - x1 = 0 := by intro e; linarith
          rw [if_neg hT, if_neg hB, if_pos hR, if_neg hd]
          refine ⟨_, _, rfl, fun _ => ?_, fun h => absurd h1 h⟩
          exact active_lt_of_replace_first xwmin ywmin xwmax ywmax x1 y1 x2 y2 _ _
            ⟨min_le_of_right_le h2, le_max_of_le_left hR.le⟩
            (cross_between x1 x2 xwmax y1 y2 hd (min_le_of_right_le h2)
              (le_max_of_le_left hR.le))
            (Or.inr (Or.inr (Or.inl ⟨hR, not_lt.mpr h2, lt_irrefl _⟩)))
        · have hL : x1 < xwmin := by
            rcases hout with h | h | h | h
            · exact absurd h hT
            · exact absurd h hB
            · exact absurd h hR
            · exact h
          have h2 := nL hL
          have hd : ¬ x2 - x1 = 0 := by intro e; linarith
          rw [if_neg hT, if_neg hB, if_neg hR, if_pos hL, if_neg hd]
          refine ⟨_, _, rfl, fun _ => ?_, fun h => absurd h1 h⟩
          exact active_lt_of_replace_first xwmin ywmin xwmax ywmax x1 y1 x2 y2 _ _
            ⟨min_le_of_left_le hL.le, le_max_of_le_right h2⟩
            (cross_between x1 x2 xwmin y1 y2 hd (min_le_of_left_le hL.le)
              (le_max_of_le_right h2))
            (Or.inr (Or.inr (Or.inr ⟨hL, not_lt.mpr h2, lt_irrefl _⟩)))
  · -- the second end point is replaced
    have h1' : ComputeOutCode x1 y1 xwmin ywmin xwmax ywmax = 0 := not_not.mp h1
    have h2z : ComputeOutCode x2 y2 xwmin ywmin xwmax ywmax ≠ 0 := by
      intro e
      apply hor
      rw [h1', e]
      rfl
    obtain ⟨i1, i2, i3, i4⟩ := (ComputeOutCode_eq_zero_iff x1 y1 xwmin ywmin xwmax ywmax).mp h1'
    rw [if_neg h1, intersect_of_ComputeOutCode xwmin ywmin xwmax ywmax x1 y1 x2 y2 x2 y2 hx hy]
    have hout := (ComputeOutCode_ne_zero x2 y2 xwmin ywmin xwmax ywmax).mp h2z
    have hne : ComputeOutCode x2 y2 xwmin ywmin xwmax ywmax ≠
        ComputeOutCode x1 y1 xwmin ywmin xwmax ywmax := by rw [h1']; exact h2z
    by_cases hT : y2 > ywmax
    · have hd : ¬ y2 - y1 = 0 := by intro e; linarith
      rw [if_pos hT, if_neg hd]
      refine ⟨_, _, rfl, fun h => absurd h h1, fun _ => ⟨hne, ?_⟩⟩
      exact active_lt_of_replace_second xwmin ywmin xwmax ywmax x1 y1 x2 y2 _ _
        (cross_between y1 y2 ywmax x1 x2 hd (min_le_of_left_le i4) (le_max_of_le_right hT.le))
        ⟨min_le_of_left_le i4, le_max_of_le_right hT.le⟩
        (Or.inl ⟨hT, not_lt.mpr i4, lt_irrefl _⟩)
    · by_cases hB : y2 < ywmin
      · have hd : ¬ y2 - y1 = 0 := by intro e; linarith
        rw [if_neg hT, if_pos hB, if_neg hd]
        refine ⟨_, _, rfl, fun h => absurd h h1, fun _ => ⟨hne, ?_⟩⟩
        exact active_lt_of_replace_second xwmin ywmin xwmax ywmax x1 y1 x2 y2 _ _
          (cross_between y1 y2 ywmin x1 x2 hd (min_le_of_right_le hB.le) (le_max_of_le_left i3))
          ⟨min_le_of_right_le hB.le, le_max_of_le_left i3⟩
          (Or.inr (Or.inl ⟨hB, not_lt.mpr i3, lt_irrefl _⟩))
      · by_cases hR : x2 > xwmax
        · have hd : ¬ x2 - x1 = 0 := by intro e; linarith
          rw [if_neg hT, if_neg hB, if_pos hR, if_neg hd]
          refine ⟨_, _, rfl, fun h => absurd h h1, fun _ => ⟨hne, ?_⟩⟩
          exact active_lt_of_replace_second xwmin ywmin xwmax ywmax x1 y1 x2 y2 _ _
            ⟨min_le_of_left_le i2, le_max_of_le_right hR.le⟩
            (cross_between x1 x2 xwmax y1 y2 hd (min_le_of_left_le i2)
              (le_max_of_le_right hR.le))
            (Or.inr (Or.inr (Or.inl ⟨hR, not_lt.mpr i2, lt_irrefl _⟩)))
        · have hL : x2 < xwmin := by
            rcases hout with h | h | h | h
            · exact absurd h hT
            · exact absurd h hB
            · exact absurd h hR
            · exact h
          have hd : ¬ x2 - x1 = 0 := by intro e; linarith
          rw [if_neg hT, if_neg hB, if_neg hR, if_pos hL, if_neg hd]
          refine ⟨_, _, rfl, fun h => absurd h h1, fun _ => ⟨hne, ?_⟩⟩
          exact active_lt_of_replace_second xwmin ywmin xwmax ywmax x1 y1 x2 y2 _ _
            ⟨min_le_of_right_le hL.le, le_max_of_le_left i1⟩
            (cross_between x1 x2 xwmin y1 y2 hd (min_le_of_right_le hL.le)
              (le_max_of_le_left i1))
            (Or.inr (Or.inr (Or.inr ⟨hL, not_lt.mpr i1, lt_irrefl _⟩)))

/-- Entered with the outcodes of its end points, the loop never ends in a
division by zero nor in a read of an unset intersection point, whatever the
fuel. -/
theorem loop_never_fails (xwmin ywmin xwmax ywmax : ℚ)
    (hx : xwmin ≤ xwmax) (hy : ywmin ≤ ywmax) :
    ∀ (fuel : ℕ) (x1 y1 x2 y2 : ℚ),
      CohenSutherlandLineClipping.loop xwmin ywmin xwmax ywmax fuel x1 y1 x2 y2
          (ComputeOutCode x1 y1 xwmin ywmin xwmax ywmax)
          (ComputeOutCode x2 y2 xwmin ywmin xwmax ywmax) ≠ ClipExit.divByZero ∧
      CohenSutherlandLineClipping.loop xwmin ywmin xwmax ywmax fuel x1 y1 x2 y2
          (ComputeOutCode x1 y1 xwmin ywmin xwmax ywmax)
          (ComputeOutCode x2 y2 xwmin ywmin xwmax ywmax) ≠ ClipExit.unset := by
  intro fuel
  induction fuel with
  | zero =>
    intro x1 y1 x2 y2
    simp [CohenSutherlandLineClipping.loop]
  | succ fuel ih =>
    intro x1 y1 x2 y2
    rw [CohenSutherlandLineClipping.loop]
    by_cases hor : ComputeOutCode x1 y1 xwmin ywmin xwmax ywmax |||
        ComputeOutCode x2 y2 xwmin ywmin xwmax ywmax = 0
    · simp [hor]
    · by_cases hand : ComputeOutCode x1 y1 xwmin ywmin xwmax ywmax &&&
          ComputeOutCode x2 y2 xwmin ywmin xwmax ywmax ≠ 0
      · simp [hor, hand]
      · obtain ⟨x, y, hi, -, hsnd⟩ := clip_step xwmin ywmin xwmax ywmax x1 y1 x2 y2 hx hy hor hand
        simp only [if_neg hor, if_neg hand, hi]
        by_cases h1 : ComputeOutCode x1 y1 xwmin ywmin xwmax ywmax ≠ 0
        · simp only [if_pos h1, if_true]
          exact ih x y x2 y2
        · simp only [if_neg h1, if_neg (hsnd h1).1]
          exact ih x1 y1 x y

/-- Entered with the outcodes of its end points and with more fuel than
there are active boundaries, the loop ends in trivial reject or in trivial
accept with both end points inside the window. -/
theorem loop_terminates (xwmin ywmin xwmax ywmax : ℚ)
    (hx : xwmin ≤ xwmax) (hy : ywmin ≤ ywmax) :
    ∀ (fuel : ℕ) (x1 y1 x2 y2 : ℚ),
      CohenSutherlandLineClipping.active xwmin ywmin xwmax ywmax x1 y1 x2 y2 < fuel →
      CohenSutherlandLineClipping.loop xwmin ywmin xwmax ywmax fuel x1 y1 x2 y2
          (ComputeOutCode x1 y1 xwmin ywmin xwmax ywmax)
          (ComputeOutCode x2 y2 xwmin ywmin xwmax ywmax) = ClipExit.reject ∨
      ∃ a b c d : ℚ,
        CohenSutherlandLineClipping.loop xwmin ywmin xwmax ywmax fuel x1 y1 x2 y2
          (ComputeOutCode x1 y1 xwmin ywmin xwmax ywmax)
          (ComputeOutCode x2 y2 xwmin ywmin xwmax ywmax) = ClipExit.accept a b c d ∧
        ComputeOutCode a b xwmin ywmin xwmax ywmax = 0 ∧
        ComputeOutCode c d xwmin ywmin xwmax ywmax = 0 := by
  intro fuel
  induction fuel with
  | zero =>
    intro x1 y1 x2 y2 h
    omega
  | succ fuel ih =>
    intro x1 y1 x2 y2 hfuel
    rw [CohenSutherlandLineClipping.loop]
    by_cases hor : ComputeOutCode x1 y1 xwmin ywmin xwmax ywmax |||
        ComputeOutCode x2 y2 xwmin ywmin xwmax ywmax = 0
    · right
      have hz := or_eq_zero_of_lt _ _ (ComputeOutCode_lt x1 y1 xwmin ywmin xwmax ywmax)
        (ComputeOutCode_lt x2 y2 xwmin ywmin xwmax ywmax) hor
      exact ⟨x1, y1, x2, y2, by simp [hor], hz.1, hz.2⟩
    · by_cases hand : ComputeOutCode x1 y1 xwmin ywmin xwmax ywmax &&&
          ComputeOutCode x2 y2 xwmin ywmin xwmax ywmax ≠ 0
      · left
        simp [hor, hand]
      · obtain ⟨x, y, hi, hfst, hsnd⟩ :=
          clip_step xwmin ywmin xwmax ywmax x1 y1 x2 y2 hx hy hor hand
        simp only [if_neg hor, if_neg hand, hi]
        by_cases h1 : ComputeOutCode x1 y1 xwmin ywmin xwmax ywmax ≠ 0
        · simp only [if_pos h1, if_true]
          exact ih x y x2 y2 (by have := hfst h1; omega)
        · simp only [if_neg h1, if_neg (hsnd h1).1]
          exact ih x1 y1 x y (by have := (hsnd h1).2; omega)

/-- There are at most four active boundaries. -/
theorem active_le_four (xwmin ywmin xwmax ywmax x1 y1 x2 y2 : ℚ) :
    CohenSutherlandLineClipping.active xwmin ywmin xwmax ywmax x1 y1 x2 y2 ≤ 4 := by
  unfold CohenSutherlandLineClipping.active
  split_ifs <;> omega

/-- C13: for every window with `xwmin ≤ xwmax` and `ywmin ≤ ywmax`, every pair
of end points and every number of passes of the loop, the clipping loop never
reaches an intersection step whose divisor is zero (`y2 - y1` for the TOP
and BOTTOM formulas, `x2 - x1` for the RIGHT and LEFT formulas), and never
leaves the intersection point unset: horizontal and vertical segments need no
special case. -/
theorem clip_never_divides_by_zero (fuel : ℕ) (xwmin ywmin xwmax ywmax x1 y1 x2 y2 : ℚ)
    (hx : xwmin ≤ xwmax) (hy : ywmin ≤ ywmax) :
    CohenSutherlandLineClipping.clip fuel xwmin ywmin xwmax ywmax x1 y1 x2 y2
      ≠ ClipExit.divByZero ∧
    CohenSutherlandLineClipping.clip fuel xwmin ywmin xwmax ywmax x1 y1 x2 y2
      ≠ ClipExit.unset := by
  unfold CohenSutherlandLineClipping.clip
  exact loop_never_fails xwmin ywmin xwmax ywmax hx hy fuel x1 y1 x2 y2

/-- Witness of C13: the horizontal segment `(-5, 5)-(15, 5)` across the window
`(0, 0, 10, 10)`. -/
theorem clip_never_divides_by_zero_witness :
    (0 : ℚ) ≤ 10 ∧
    CohenSutherlandLineClipping.clip 5 0 0 10 10 (-5) 5 15 5 ≠ ClipExit.divByZero ∧
    CohenSutherlandLineClipping.clip 5 0 0 10 10 (-5) 5 15 5 ≠ ClipExit.unset :=
  ⟨by norm_num,
    clip_never_divides_by_zero 5 0 0 10 10 (-5) 5 15 5 (by norm_num) (by norm_num)⟩

/-- C14: for every window with `xwmin ≤ xwmax` and `ywmin ≤ ywmax` and every
pair of end points, the clipping loop ends within five passes, that is after
at most four intersection steps: with fuel above 4 it reaches trivial reject,
and nothing is drawn, or trivial accept, and then both end points handed to
`LineDDA` lie inside the window. -/
theorem clip_terminates (fuel : ℕ) (xwmin ywmin xwmax ywmax x1 y1 x2 y2 : ℚ)
    (hfuel : 4 < fuel) (hx : xwmin ≤ xwmax) (hy : ywmin ≤ ywmax) :
    (CohenSutherlandLineClipping.clip fuel xwmin ywmin xwmax ywmax x1 y1 x2 y2
        = ClipExit.reject ∧
      CohenSutherlandLineClipping fuel xwmin ywmin xwmax ywmax x1 y1 x2 y2 = some []) ∨
    ∃ a b c d : ℚ,
      CohenSutherlandLineClipping.clip fuel xwmin ywmin xwmax ywmax x1 y1 x2 y2
        = ClipExit.accept a b c d ∧
      CohenSutherlandLineClipping fuel xwmin ywmin xwmax ywmax x1 y1 x2 y2
        = some (LineDDA a b c d) ∧
      (xwmin ≤ a ∧ a ≤ xwmax ∧ ywmin ≤ b ∧ b ≤ ywmax) ∧
      (xwmin ≤ c ∧ c ≤ xwmax ∧ ywmin ≤ d ∧ d ≤ ywmax) := by
  have hact := active_le_four xwmin ywmin xwmax ywmax x1 y1 x2 y2
  have h := loop_terminates xwmin ywmin xwmax ywmax hx hy fuel x1 y1 x2 y2 (by omega)
  have hc : CohenSutherlandLineClipping.clip fuel xwmin ywmin xwmax ywmax x1 y1 x2 y2 =
      CohenSutherlandLineClipping.loop xwmin ywmin xwmax ywmax fuel x1 y1 x2 y2
        (ComputeOutCode x1 y1 xwmin ywmin xwmax ywmax)
        (ComputeOutCode x2 y2 xwmin ywmin xwmax ywmax) := rfl
  rcases h with h | ⟨a, b, c, d, h, ha, hb⟩
  · left
    rw [← hc] at h
    exact ⟨h, by simp [CohenSutherlandLineClipping, h]⟩
  · right
    rw [← hc] at h
    exact ⟨a, b, c, d, h, by simp [CohenSutherlandLineClipping, h],
      (ComputeOutCode_eq_zero_iff a b xwmin ywmin xwmax ywmax).mp ha,
      (ComputeOutCode_eq_zero_iff c d xwmin ywmin xwmax ywmax).mp hb⟩

/-- The segment `(-5, 5)-(15, 5)` across the window `(0, 0, 10, 10)` is
clipped at the left, then at the right, and accepted as `(0, 5)-(10, 5)`. -/
theorem clip_both_sides :
    CohenSutherlandLineClipping.clip 5 0 0 10 10 (-5) 5 15 5 = ClipExit.accept 0 5 10 5 := by
  have c1 : ComputeOutCode (-5) 5 0 0 10 10 = 1 := by norm_num [ComputeOutCode]
  have c2 : ComputeOutCode 15 5 0 0 10 10 = 2 := by norm_num [ComputeOutCode]
  have c3 : ComputeOutCode 0 5 0 0 10 10 = 0 := by norm_num [ComputeOutCode]
  have c4 : ComputeOutCode 10 5 0 0 10 10 = 0 := by norm_num [ComputeOutCode]
  unfold CohenSutherlandLineClipping.clip
  rw [c1, c2]
  have s1 : CohenSutherlandLineClipping.intersect 0 0 10 10 (-5) 5 15 5 1
      = Crossing.point 0 5 := by
    simp +decide [CohenSutherlandLineClipping.intersect]
    norm_num
  have s2 : CohenSutherlandLineClipping.intersect 0 0 10 10 0 5 15 5 2
      = Crossing.point 10 5 := by
    simp +decide [CohenSutherlandLineClipping.intersect]
  simp +decide [CohenSutherlandLineClipping.loop, s1, s2, c3, c4]

/-- Witness of C14: the segment `(-5, 5)-(15, 5)` across the window
`(0, 0, 10, 10)`, with fuel 5; it is accepted as `(0, 5)-(10, 5)` after two
intersection steps. -/
theorem clip_terminates_witness :
    4 < 5 ∧ (0 : ℚ) ≤ 10 ∧
    CohenSutherlandLineClipping.clip 5 0 0 10 10 (-5) 5 15 5 = ClipExit.accept 0 5 10 5 ∧
    ((CohenSutherlandLineClipping.clip 5 0 0 10 10 (-5) 5 15 5 = ClipExit.reject ∧
        CohenSutherlandLineClipping 5 0 0 10 10 (-5) 5 15 5 = some []) ∨
      ∃ a b c d : ℚ,
        CohenSutherlandLineClipping.clip 5 0 0 10 10 (-5) 5 15 5 = ClipExit.accept a b c d ∧
        CohenSutherlandLineClipping 5 0 0 10 10 (-5) 5 15 5 = some (LineDDA a b c d) ∧
        ((0 : ℚ) ≤ a ∧ a ≤ 10 ∧ (0 : ℚ) ≤ b ∧ b ≤ 10) ∧
        ((0 : ℚ) ≤ c ∧ c ≤ 10 ∧ (0 : ℚ) ≤ d ∧ d ≤ 10)) :=
  ⟨by decide, by norm_num, clip_both_sides,
    clip_terminates 5 0 0 10 10 (-5) 5 15 5 (by decide) (by norm_num) (by norm_num)⟩

end Graphics
